import Mathlib

/-!
Verification of the note-ordering core (note_sequences maintenance).

The embedding models the database state as plain lists:

* `Entry` is a row of the `note_sequences` table (note_id, project_id,
  parent_id, sequence); `parent = none` is the root-level group key, and the
  SQL comparison `parent_id IS NOT DISTINCT FROM x` is plain equality of
  `Option Nat`.
* `Node` is a row of the `notes` table restricted to the fields the ordering
  logic reads (id, project_id, parent_id); content and timestamps are opaque
  to this core.

The modelled operations are translated from the SQL migrations (the latest
version of each function) and from `src/lib/database/notes.ts`:

* `move_note`           from 20250312200023_violet_hall.sql
* `normalize_note_sequences` from the same migration
* `get_next_sequence`   from the earlier ordering migration
* `delete_note_tree`    from 20250312195747_ancient_frog.sql, together with
  the `ON DELETE CASCADE` foreign keys of the schema in that same file
* `noteCreate`          from noteOperations.create in notes.ts
-/

/-- A row of the `note_sequences` table: note id, project id, parent id
(`none` = root group) and the 1-based sequence (SQL `integer`). -/
structure Entry where
  note : Nat
  project : Nat
  parent : Option Nat
  seq : Int
  deriving DecidableEq, Repr

/-- A row of the `notes` table, restricted to the fields the ordering core
reads: id, project_id and parent_id. -/
structure Node where
  id : Nat
  project : Nat
  parent : Option Nat
  deriving DecidableEq, Repr

/-- Membership test for a (project, parent) sibling group; `parent_id IS NOT
DISTINCT FROM pa` is equality on `Option Nat`. -/
def inGroup (pj : Nat) (pa : Option Nat) (x : Entry) : Bool :=
  decide (x.project = pj ∧ x.parent = pa)

/-- The rows of one sibling group, in stored order. -/
def groupEntries (s : List Entry) (pj : Nat) (pa : Option Nat) : List Entry :=
  s.filter (inGroup pj pa)

/-- The sequence values present in one sibling group. -/
def groupSeqs (s : List Entry) (pj : Nat) (pa : Option Nat) : List Int :=
  (groupEntries s pj pa).map Entry.seq

/-- `group_size(container, parent)`: number of rows in the group. -/
def groupSize (s : List Entry) (pj : Nat) (pa : Option Nat) : Nat :=
  (groupEntries s pj pa).length

/-- Maximum of a list of integers, `0` for the empty list: the value of
`COALESCE(MAX(sequence), 0)` over a group. -/
def maxOf : List Int → Int
  | [] => 0
  | b :: bs => bs.foldl max b

/-- `SELECT COALESCE(MAX(sequence), 0) FROM note_sequences WHERE project_id =
pj AND parent_id IS NOT DISTINCT FROM pa`. -/
def maxSeq (s : List Entry) (pj : Nat) (pa : Option Nat) : Int :=
  maxOf (groupSeqs s pj pa)

/-- `SELECT ... FROM note_sequences WHERE note_id = n` (note_id is the primary
key, so the first matching row is the row). -/
def lookupEntry (s : List Entry) (n : Nat) : Option Entry :=
  s.find? (fun x => decide (x.note = n))

/-- Comparison used by `ORDER BY sequence`. -/
def seqLE (x y : Entry) : Prop := x.seq ≤ y.seq

instance : DecidableRel seqLE := fun x y =>
  (inferInstance : Decidable (x.seq ≤ y.seq))

instance : IsTotal Entry seqLE := ⟨fun x y => Int.le_total x.seq y.seq⟩

instance : IsTrans Entry seqLE := ⟨fun _ _ _ h₁ h₂ => le_trans h₁ h₂⟩

/-- One sibling group ordered by sequence (`ORDER BY sequence`).  The SQL
leaves the relative order of rows with equal sequences unspecified; the
embedding determinizes it as the stored row order (a stable sort), the usual
PostgreSQL behaviour for a heap scan. -/
def sortedGroup (s : List Entry) (pj : Nat) (pa : Option Nat) : List Entry :=
  List.insertionSort seqLE (groupEntries s pj pa)

/-- Note ids of one group in `ORDER BY sequence` order. -/
def sortedNotes (s : List Entry) (pj : Nat) (pa : Option Nat) : List Nat :=
  (sortedGroup s pj pa).map Entry.note

/-- Pointwise effect of `normalize_note_sequences` on one row: rows of the
target group get sequence = (1-based rank in `ORDER BY sequence` order), other
rows are untouched. -/
def normFn (s : List Entry) (pj : Nat) (pa : Option Nat) (x : Entry) : Entry :=
  if x.project = pj ∧ x.parent = pa then
    { x with seq := ((sortedNotes s pj pa).indexOf x.note : Int) + 1 }
  else x

/-- `normalize_note_sequences(target_project_id, target_parent_id)` from
20250312200023_violet_hall.sql: iterate the group `ORDER BY sequence` and
assign sequences 1, 2, 3, ... . -/
def normalize_note_sequences (s : List Entry) (pj : Nat) (pa : Option Nat) :
    List Entry :=
  s.map (normFn s pj pa)

/-- The parking sentinel (`v_temp_sequence integer := 9999999`). -/
def tempSeq : Int := 9999999

/-- STEP 1 of `move_note` (park): `UPDATE note_sequences SET parent_id =
p_new_parent_id, sequence = v_temp_sequence WHERE note_id = p_note_id`. -/
def parkFn (n : Nat) (newPa : Option Nat) (x : Entry) : Entry :=
  if x.note = n then { x with parent := newPa, seq := tempSeq } else x

/-- STEP 3, same parent, moving forward: `UPDATE ... SET sequence = sequence -
1 WHERE project_id = pj AND parent_id IS NOT DISTINCT FROM pa AND sequence >
lo AND sequence <= hi`. -/
def decBetweenFn (pj : Nat) (pa : Option Nat) (lo hi : Int) (x : Entry) :
    Entry :=
  if x.project = pj ∧ x.parent = pa ∧ lo < x.seq ∧ x.seq ≤ hi then
    { x with seq := x.seq - 1 }
  else x

/-- STEP 3, same parent, moving backward: `UPDATE ... SET sequence = sequence
+ 1 WHERE ... AND sequence >= lo AND sequence < hi`. -/
def incBetweenFn (pj : Nat) (pa : Option Nat) (lo hi : Int) (x : Entry) :
    Entry :=
  if x.project = pj ∧ x.parent = pa ∧ lo ≤ x.seq ∧ x.seq < hi then
    { x with seq := x.seq + 1 }
  else x

/-- STEP 3, different parent, close the gap in the old group: `UPDATE ... SET
sequence = sequence - 1 WHERE ... AND sequence > lo`. -/
def decAboveFn (pj : Nat) (pa : Option Nat) (lo : Int) (x : Entry) : Entry :=
  if x.project = pj ∧ x.parent = pa ∧ lo < x.seq then
    { x with seq := x.seq - 1 }
  else x

/-- STEP 3, different parent, make space in the new group: `UPDATE ... SET
sequence = sequence + 1 WHERE ... AND sequence >= lo`. -/
def incFromFn (pj : Nat) (pa : Option Nat) (lo : Int) (x : Entry) : Entry :=
  if x.project = pj ∧ x.parent = pa ∧ lo ≤ x.seq then
    { x with seq := x.seq + 1 }
  else x

/-- STEP 4 of `move_note` (place): `UPDATE note_sequences SET parent_id =
p_new_parent_id, sequence = p_new_position WHERE note_id = p_note_id` (the
parent was already set while parking, so only the sequence changes here). -/
def placeFn (n : Nat) (pos : Int) (x : Entry) : Entry :=
  if x.note = n then { x with seq := pos } else x

/-- The composite per-row effect of STEPs 1, 3 and 4 of `move_note`: park,
shift by case (same parent forward / same parent backward / different
parent), place. -/
def moveFn (n : Nat) (pj : Nat) (oldPa newPa : Option Nat) (oldSeq pos : Int)
    (x : Entry) : Entry :=
  placeFn n pos
    (if oldPa = newPa then
      if oldSeq < pos then decBetweenFn pj newPa oldSeq pos (parkFn n newPa x)
      else incBetweenFn pj newPa pos oldSeq (parkFn n newPa x)
    else
      incFromFn pj newPa pos (decAboveFn pj oldPa oldSeq (parkFn n newPa x)))

/-- The store after `move_note` succeeds on the row `e` of note `n`: clamp
the requested position with `GREATEST(1, LEAST(p_new_position,
v_max_sequence + 1))`, run park/shift/place on every row, then STEP 5:
normalize the old group and, if the parent changed, also the new group. -/
def moveResult (s : List Entry) (n : Nat) (e : Entry) (newPa : Option Nat)
    (reqPos : Int) : List Entry :=
  let pj := e.project
  let pos : Int := max 1 (min reqPos (maxSeq s pj newPa + 1))
  let s3 := s.map (moveFn n pj e.parent newPa e.seq pos)
  let s4 := normalize_note_sequences s3 pj e.parent
  if e.parent = newPa then s4 else normalize_note_sequences s4 pj newPa

/-- `move_note(p_note_id, p_new_parent_id, p_new_position)` from
20250312200023_violet_hall.sql, acting on the `note_sequences` table.
`none` is returned for the `RAISE EXCEPTION ... not found` path; otherwise
the store is transformed by `moveResult`. -/
def move_note (s : List Entry) (noteId : Nat) (newParent : Option Nat)
    (reqPos : Int) : Option (List Entry) :=
  match lookupEntry s noteId with
  | none => none
  | some e => some (moveResult s noteId e newParent reqPos)

/-- `move_note` together with STEP 2 of the SQL, the mirror update of
`notes.parent_id`. -/
def move_note_full (notes : List Node) (s : List Entry) (noteId : Nat)
    (newParent : Option Nat) (reqPos : Int) :
    Option (List Node × List Entry) :=
  (move_note s noteId newParent reqPos).map fun s' =>
    (notes.map fun nd =>
      if nd.id = noteId then { nd with parent := newParent } else nd, s')

/-- `get_next_sequence(p_project_id, p_parent_id)`:
`COALESCE(MAX(sequence), 0) + 1` over the target group. -/
def get_next_sequence (s : List Entry) (pj : Nat) (pa : Option Nat) : Int :=
  maxSeq s pj pa + 1

/-- The `note_sequences` insert performed when a note is created: a new row at
the end of its group, with sequence `get_next_sequence`. -/
def create_order_entry (s : List Entry) (pj : Nat) (pa : Option Nat)
    (noteId : Nat) : List Entry :=
  s ++ [{ note := noteId, project := pj, parent := pa,
          seq := get_next_sequence s pj pa }]

/-- `noteOperations.create` from src/src/lib/database/notes.ts: insert the
note row, compute the next sequence, insert the sequence row (the JS
`sequence || 1` fallback is the `if q = 0` branch); if the sequence insert
fails — modelled by the boolean `seqInsertFails` — delete the note row again
and propagate the error (the returned boolean is `false`). -/
def noteCreate (notes : List Node) (s : List Entry) (pj : Nat)
    (pa : Option Nat) (noteId : Nat) (seqInsertFails : Bool) :
    Bool × List Node × List Entry :=
  let notes1 := notes ++ [{ id := noteId, project := pj, parent := pa }]
  if seqInsertFails then
    (false, notes1.filter (fun nd => decide (nd.id ≠ noteId)), s)
  else
    let q := get_next_sequence s pj pa
    (true, notes1,
      s ++ [{ note := noteId, project := pj, parent := pa,
              seq := if q = 0 then 1 else q }])

/-- ids of the notes whose parent_id is in `ids` (the JOIN of the recursive
step of the CTE in `delete_note_tree`). -/
def childIds (notes : List Node) (ids : List Nat) : List Nat :=
  (notes.filter fun nd =>
    match nd.parent with
    | some p => decide (p ∈ ids)
    | none => false).map Node.id

/-- The levels of the recursive CTE of `delete_note_tree`: each recursive step
joins the previous level with `notes`, and rows are generated only while the
parent's depth is `< 50`, so `fuel = 49` expansions after the root level. -/
def collectLevels (notes : List Node) (frontier : List Nat) : Nat → List Nat
  | 0 => frontier
  | fuel + 1 => frontier ++ collectLevels notes (childIds notes frontier) fuel

/-- `WITH RECURSIVE descendants ... WHERE d.depth < 50` — the ids collected by
`delete_note_tree`, truncated at depth 50. -/
def collect_descendants (notes : List Node) (root : Nat) : List Nat :=
  collectLevels notes [root] 49

/-- One round of the `notes.parent_id REFERENCES notes(id) ON DELETE CASCADE`
foreign key: children of dead notes die. -/
def cascadeStep (notes : List Node) (dead : List Nat) : List Nat :=
  dead ++ (notes.filter fun nd =>
    decide (nd.id ∉ dead) &&
      (match nd.parent with
       | some p => decide (p ∈ dead)
       | none => false)).map Node.id

/-- Iterated cascade rounds. -/
def cascadeFuel (notes : List Node) (dead : List Nat) : Nat → List Nat
  | 0 => dead
  | fuel + 1 => cascadeFuel notes (cascadeStep notes dead) fuel

/-- The set of notes removed once the `ON DELETE CASCADE` chain of
`notes.parent_id` has run to completion (`notes.length` rounds always
suffice on an actual table). -/
def cascadeClosure (notes : List Node) (dead : List Nat) : List Nat :=
  cascadeFuel notes dead notes.length

/-- `delete_note_tree(root_note_id)` from 20250312195747_ancient_frog.sql
together with the schema's cascades: collect the descendants (depth-capped at
50), `DELETE FROM note_sequences WHERE note_id = ANY(...)`, then delete the
collected notes — which cascades along `notes.parent_id` to any deeper notes,
and along the `note_sequences.note_id` / `note_sequences.parent_id` foreign
keys to their sequence rows.  The note_count/timestamp refresh of the
`settings` row is outside the ordering state modelled here. -/
def delete_note_tree (notes : List Node) (s : List Entry) (root : Nat) :
    List Node × List Entry :=
  let d := collect_descendants notes root
  let dead := cascadeClosure notes d
  let notes' := notes.filter fun nd => decide (nd.id ∉ dead)
  let seqs' := s.filter fun x =>
    decide (x.note ∉ d) && decide (x.note ∉ dead) &&
      (match x.parent with
       | some p => decide (p ∉ dead)
       | none => true)
  (notes', seqs')

/-- The list `[lo, lo+1, ..., lo+n-1]` of integers. -/
def intRange (lo : Int) : Nat → List Int
  | 0 => []
  | n + 1 => lo :: intRange (lo + 1) n

/-- Invariant I1/I2 for one sibling group: the multiset of sequences is
exactly {1, ..., N}, N the group size — dense, no duplicates, no gaps. -/
def DenseGroup (s : List Entry) (pj : Nat) (pa : Option Nat) : Prop :=
  (groupSeqs s pj pa).Perm (intRange 1 (groupSize s pj pa))

instance (s : List Entry) (pj : Nat) (pa : Option Nat) :
    Decidable (DenseGroup s pj pa) :=
  inferInstanceAs (Decidable (List.Perm _ _))

/-- Invariant I1/I2 for every sibling group of the store. -/
def AllDense (s : List Entry) : Prop := ∀ pj pa, DenseGroup s pj pa

/-- The primary-key constraint of `note_sequences`: one row per note. -/
def NotesNodup (s : List Entry) : Prop := (s.map Entry.note).Nodup

instance (s : List Entry) : Decidable (NotesNodup s) :=
  inferInstanceAs (Decidable (List.Nodup _))


/-- A parent chain of 51 notes (note i+1 is the parent of note i+2; note 1 is
the root): one level deeper than the depth cap of `delete_note_tree`. -/
def chainNotes : List Node :=
  (List.range 51).map fun i =>
    { id := i + 1, project := 0, parent := if i = 0 then none else some i }

/-! ### Basic facts about `intRange` -/

theorem intRange_length (lo : Int) (n : Nat) : (intRange lo n).length = n := by
  induction n generalizing lo with
  | zero => rfl
  | succ k ih => simp [intRange, ih]

theorem mem_intRange {b lo : Int} {n : Nat} :
    b ∈ intRange lo n ↔ lo ≤ b ∧ b < lo + n := by
  induction n generalizing lo with
  | zero => simp [intRange]
  | succ k ih =>
    simp only [intRange, List.mem_cons, ih]
    constructor
    · rintro (rfl | ⟨h₁, h₂⟩) <;> omega
    · rintro ⟨h₁, h₂⟩
      rcases eq_or_lt_of_le h₁ with rfl | hlt
      · exact Or.inl rfl
      · exact Or.inr ⟨by omega, by omega⟩

theorem intRange_append (lo : Int) (m n : Nat) :
    intRange lo (m + n) = intRange lo m ++ intRange (lo + m) n := by
  induction m generalizing lo with
  | zero => simp [intRange]
  | succ k ih =>
    have : k + 1 + n = (k + n) + 1 := by omega
    rw [this]
    simp only [intRange, ih, List.cons_append]
    have : lo + 1 + (k : Int) = lo + (k + 1 : Nat) := by push_cast; ring
    rw [this]

theorem intRange_getElem (lo : Int) (n i : Nat)
    (h : i < (intRange lo n).length) :
    (intRange lo n)[i] = lo + i := by
  induction n generalizing lo i with
  | zero => simp [intRange_length] at h
  | succ k ih =>
    cases i with
    | zero => simp [intRange]
    | succ j =>
      have hj : j < (intRange (lo + 1) k).length := by
        rw [intRange_length] at h ⊢
        omega
      rw [List.getElem_of_eq (show intRange lo (k + 1) =
        lo :: intRange (lo + 1) k from rfl) h]
      rw [List.getElem_cons_succ, ih (lo + 1) j hj]
      push_cast; ring

theorem intRange_map_add (lo c : Int) (n : Nat) :
    (intRange lo n).map (fun b => b + c) = intRange (lo + c) n := by
  induction n generalizing lo with
  | zero => rfl
  | succ k ih =>
    simp only [intRange, List.map_cons, ih]
    have : lo + 1 + c = lo + c + 1 := by ring
    rw [this]

theorem intRange_pairwise_le (lo : Int) (n : Nat) :
    (intRange lo n).Pairwise (· ≤ ·) := by
  induction n generalizing lo with
  | zero => exact List.Pairwise.nil
  | succ k ih =>
    refine List.Pairwise.cons ?_ (ih (lo + 1))
    intro b hb
    have := mem_intRange.mp hb
    omega

theorem intRange_nodup (lo : Int) (n : Nat) : (intRange lo n).Nodup := by
  induction n generalizing lo with
  | zero => exact List.nodup_nil
  | succ k ih =>
    refine List.Nodup.cons ?_ (ih (lo + 1))
    intro hmem
    have := mem_intRange.mp hmem
    omega

theorem intRange_one_cons (lo : Int) (n : Nat) :
    lo :: intRange (lo + 1) n = intRange lo (n + 1) := rfl

/-! ### Basic facts about `maxOf` -/

theorem foldl_max_spec (bs : List Int) (b : Int) :
    (bs.foldl max b = b ∨ bs.foldl max b ∈ bs) ∧ b ≤ bs.foldl max b ∧
      ∀ x ∈ bs, x ≤ bs.foldl max b := by
  induction bs generalizing b with
  | nil => simp
  | cons a t ih =>
    obtain ⟨hmem, hle, hall⟩ := ih (max b a)
    refine ⟨?_, ?_, ?_⟩
    · simp only [List.foldl_cons, List.mem_cons]
      rcases hmem with h | h
      · rcases max_choice b a with hba | hba <;> rw [h, hba]
        · exact Or.inl rfl
        · exact Or.inr (Or.inl rfl)
      · exact Or.inr (Or.inr h)
    · simp only [List.foldl_cons]
      exact le_trans (le_max_left b a) hle
    · intro x hx
      simp only [List.foldl_cons]
      rcases List.mem_cons.mp hx with rfl | hxt
      · exact le_trans (le_max_right b x) hle
      · exact hall x hxt

theorem maxOf_mem {l : List Int} (h : l ≠ []) : maxOf l ∈ l := by
  cases l with
  | nil => exact absurd rfl h
  | cons b bs =>
    obtain ⟨hmem, -, -⟩ := foldl_max_spec bs b
    rcases hmem with h' | h'
    · rw [maxOf, h']; exact List.mem_cons_self b bs
    · rw [maxOf]; exact List.mem_cons_of_mem b h'

theorem le_maxOf {l : List Int} {x : Int} (hx : x ∈ l) : x ≤ maxOf l := by
  cases l with
  | nil => cases hx
  | cons b bs =>
    obtain ⟨-, hle, hall⟩ := foldl_max_spec bs b
    rcases List.mem_cons.mp hx with rfl | hxt
    · exact hle
    · exact hall x hxt

theorem maxOf_perm {l₁ l₂ : List Int} (h : l₁.Perm l₂) :
    maxOf l₁ = maxOf l₂ := by
  rcases eq_or_ne l₁ [] with rfl | h₁
  · rw [h.symm.eq_nil]
  · have h₂ : l₂ ≠ [] := by
      intro he; subst he; exact h₁ h.eq_nil
    exact le_antisymm
      (le_maxOf (h.mem_iff.mp (maxOf_mem h₁)))
      (le_maxOf (h.symm.mem_iff.mp (maxOf_mem h₂)))

theorem maxOf_intRange (n : Nat) : maxOf (intRange 1 n) = n := by
  cases n with
  | zero => rfl
  | succ k =>
    have hne : intRange 1 (k + 1) ≠ [] := by simp [intRange]
    refine le_antisymm ?_ ?_
    · have := mem_intRange.mp (maxOf_mem hne)
      omega
    · exact le_maxOf (mem_intRange.mpr (by push_cast; omega))

/-! ### Generic list lemmas for maps of the store -/

theorem filter_map_of {α : Type} (l : List α) (f : α → α) (p q : α → Bool)
    (h : ∀ x ∈ l, p (f x) = q x) :
    (l.map f).filter p = (l.filter q).map f := by
  induction l with
  | nil => rfl
  | cons a t ih =>
    have ha := h a (List.mem_cons_self a t)
    have ht := ih fun x hx => h x (List.mem_cons_of_mem a hx)
    simp only [List.map_cons, List.filter_cons, ha]
    cases hq : q a <;> simp [ht]

theorem find?_map_of {α : Type} (l : List α) (f : α → α) (p q : α → Bool)
    (h : ∀ x ∈ l, p (f x) = q x) :
    (l.map f).find? p = (l.find? q).map f := by
  induction l with
  | nil => rfl
  | cons a t ih =>
    have ha := h a (List.mem_cons_self a t)
    have ht := ih fun x hx => h x (List.mem_cons_of_mem a hx)
    simp only [List.map_cons, List.find?_cons, ha]
    cases hq : q a <;> simp [ht]

theorem lookupEntry_map (s : List Entry) (f : Entry → Entry)
    (hf : ∀ x ∈ s, (f x).note = x.note) (n : Nat) :
    lookupEntry (s.map f) n = (lookupEntry s n).map f := by
  refine find?_map_of s f _ _ fun x hx => ?_
  simp [hf x hx]

theorem lookupEntry_mem {s : List Entry} {n : Nat} {e : Entry}
    (h : lookupEntry s n = some e) : e ∈ s ∧ e.note = n := by
  refine ⟨List.mem_of_find?_eq_some h, ?_⟩
  have := List.find?_some h
  simpa using this

theorem note_inj {s : List Entry} (hn : NotesNodup s) {x y : Entry}
    (hx : x ∈ s) (hy : y ∈ s) (hxy : x.note = y.note) : x = y :=
  List.inj_on_of_nodup_map hn hx hy hxy

theorem lookupEntry_of_mem {s : List Entry} (hn : NotesNodup s) {x : Entry}
    (hx : x ∈ s) : lookupEntry s x.note = some x := by
  induction s with
  | nil => cases hx
  | cons a t ih =>
    simp only [NotesNodup, List.map_cons, List.nodup_cons] at hn
    rcases List.mem_cons.mp hx with rfl | hxt
    · rw [lookupEntry, List.find?_cons_of_pos _ (by simp)]
    · have hax : a.note ≠ x.note := fun h =>
        hn.1 (h ▸ List.mem_map_of_mem Entry.note hxt)
      rw [lookupEntry, List.find?_cons_of_neg _ (by simp [hax])]
      exact ih hn.2 hxt

/-! ### Sibling groups and their maps -/

theorem mem_groupEntries {s : List Entry} {pj : Nat} {pa : Option Nat}
    {x : Entry} :
    x ∈ groupEntries s pj pa ↔ x ∈ s ∧ x.project = pj ∧ x.parent = pa := by
  simp [groupEntries, List.mem_filter, inGroup]

theorem groupEntries_map_of {s : List Entry} {pj : Nat} {pa : Option Nat}
    (f : Entry → Entry)
    (h : ∀ x ∈ s, inGroup pj pa (f x) = inGroup pj pa x) :
    groupEntries (s.map f) pj pa = (groupEntries s pj pa).map f :=
  filter_map_of s f _ _ h

theorem groupEntries_notes_nodup {s : List Entry} (hn : NotesNodup s)
    (pj : Nat) (pa : Option Nat) :
    ((groupEntries s pj pa).map Entry.note).Nodup :=
  (((s.filter_sublist (p := inGroup pj pa)).map Entry.note).nodup) hn

/-! ### The sorted group -/

theorem sortedGroup_perm (s : List Entry) (pj : Nat) (pa : Option Nat) :
    (sortedGroup s pj pa).Perm (groupEntries s pj pa) :=
  List.perm_insertionSort seqLE _

theorem sortedGroup_sorted (s : List Entry) (pj : Nat) (pa : Option Nat) :
    List.Sorted seqLE (sortedGroup s pj pa) :=
  List.sorted_insertionSort seqLE _

theorem sortedNotes_nodup {s : List Entry} (hn : NotesNodup s)
    (pj : Nat) (pa : Option Nat) : (sortedNotes s pj pa).Nodup :=
  (((sortedGroup_perm s pj pa).map Entry.note).nodup_iff).mpr
    (groupEntries_notes_nodup hn pj pa)

theorem sortedNotes_length (s : List Entry) (pj : Nat) (pa : Option Nat) :
    (sortedNotes s pj pa).length = groupSize s pj pa := by
  simp [sortedNotes, groupSize, (sortedGroup_perm s pj pa).length_eq]

theorem mem_sortedNotes {s : List Entry} {pj : Nat} {pa : Option Nat}
    {x : Entry} (hx : x ∈ s) (hpj : x.project = pj) (hpa : x.parent = pa) :
    x.note ∈ sortedNotes s pj pa := by
  have hg : x ∈ groupEntries s pj pa := mem_groupEntries.mpr ⟨hx, hpj, hpa⟩
  have : x ∈ sortedGroup s pj pa := (sortedGroup_perm s pj pa).mem_iff.mpr hg
  exact List.mem_map_of_mem Entry.note this

/-! ### Pointwise facts about `normFn` -/

theorem normFn_note (s : List Entry) (pj : Nat) (pa : Option Nat)
    (x : Entry) : (normFn s pj pa x).note = x.note := by
  unfold normFn; split <;> rfl

theorem normFn_project (s : List Entry) (pj : Nat) (pa : Option Nat)
    (x : Entry) : (normFn s pj pa x).project = x.project := by
  unfold normFn; split <;> rfl

theorem normFn_parent (s : List Entry) (pj : Nat) (pa : Option Nat)
    (x : Entry) : (normFn s pj pa x).parent = x.parent := by
  unfold normFn; split <;> rfl

theorem normFn_of_not_mem (s : List Entry) (pj : Nat) (pa : Option Nat)
    {x : Entry} (h : ¬(x.project = pj ∧ x.parent = pa)) :
    normFn s pj pa x = x := if_neg h

theorem normFn_of_mem (s : List Entry) (pj : Nat) (pa : Option Nat)
    {x : Entry} (h : x.project = pj ∧ x.parent = pa) :
    normFn s pj pa x =
      { x with seq := ((sortedNotes s pj pa).indexOf x.note : Int) + 1 } :=
  if_pos h

/-! ### Structure of `normalize_note_sequences` -/

theorem normalize_groupEntries (s : List Entry) (pj : Nat) (pa : Option Nat) :
    groupEntries (normalize_note_sequences s pj pa) pj pa =
      (groupEntries s pj pa).map (normFn s pj pa) :=
  groupEntries_map_of _ fun x _ => by
    simp [inGroup, normFn_project, normFn_parent]

theorem normalize_groupEntries_other (s : List Entry) (pj pj' : Nat)
    (pa pa' : Option Nat) (h : ¬(pj' = pj ∧ pa' = pa)) :
    groupEntries (normalize_note_sequences s pj pa) pj' pa' =
      groupEntries s pj' pa' := by
  rw [normalize_note_sequences,
    groupEntries_map_of (normFn s pj pa)
      (fun x _ => by simp [inGroup, normFn_project, normFn_parent])]
  have : ∀ x ∈ groupEntries s pj' pa', normFn s pj pa x = x := by
    intro x hx
    obtain ⟨-, hpj, hpa⟩ := mem_groupEntries.mp hx
    refine normFn_of_not_mem s pj pa fun hc => h ?_
    exact ⟨hpj ▸ hc.1, hpa ▸ hc.2⟩
  rw [List.map_congr_left this, List.map_id']

theorem normalize_notes_nodup {s : List Entry} (hn : NotesNodup s)
    (pj : Nat) (pa : Option Nat) :
    NotesNodup (normalize_note_sequences s pj pa) := by
  unfold NotesNodup normalize_note_sequences
  rw [List.map_map]
  have : (Entry.note ∘ normFn s pj pa) = Entry.note := by
    funext x; exact normFn_note s pj pa x
  rw [this]; exact hn

theorem normalize_lookup (s : List Entry) (pj : Nat) (pa : Option Nat)
    (n : Nat) :
    lookupEntry (normalize_note_sequences s pj pa) n =
      (lookupEntry s n).map (normFn s pj pa) :=
  lookupEntry_map s _ (fun x _ => normFn_note s pj pa x) n

/-- After a normalize, the sorted sequence list of the target group is exactly
1, 2, ..., N: the key fact behind both density and idempotence. -/
theorem sortedGroup_map_seq_of_dense {s : List Entry} {pj : Nat}
    {pa : Option Nat} (hd : DenseGroup s pj pa) :
    (sortedGroup s pj pa).map Entry.seq =
      intRange 1 (groupSize s pj pa) := by
  refine List.eq_of_perm_of_sorted (r := (· ≤ · : Int → Int → Prop))
    (((sortedGroup_perm s pj pa).map Entry.seq).trans hd) ?_
    (intRange_pairwise_le 1 _)
  have hs := sortedGroup_sorted s pj pa
  exact List.pairwise_map.mpr hs

theorem Entry_update_seq_eq {x : Entry} {v : Int} (h : v = x.seq) :
    ({ x with seq := v } : Entry) = x := by
  cases x; cases h; rfl

theorem normalize_groupSize (s : List Entry) (pj : Nat) (pa : Option Nat) :
    groupSize (normalize_note_sequences s pj pa) pj pa = groupSize s pj pa := by
  simp [groupSize, normalize_groupEntries]

theorem sortedGroup_length (s : List Entry) (pj : Nat) (pa : Option Nat) :
    (sortedGroup s pj pa).length = groupSize s pj pa :=
  (sortedGroup_perm s pj pa).length_eq

/-- Normalizing a group always leaves it dense: the new sequences are exactly
the ranks 1..N of the `ORDER BY sequence` iteration. -/
theorem normalize_dense {s : List Entry} (hn : NotesNodup s)
    (pj : Nat) (pa : Option Nat) :
    DenseGroup (normalize_note_sequences s pj pa) pj pa := by
  unfold DenseGroup
  rw [normalize_groupSize, groupSeqs, normalize_groupEntries, List.map_map]
  refine ((sortedGroup_perm s pj pa).symm.map _).trans ?_
  have hlen := sortedGroup_length s pj pa
  have hEq : (sortedGroup s pj pa).map (Entry.seq ∘ normFn s pj pa) =
      intRange 1 (groupSize s pj pa) := by
    refine List.ext_getElem (by simp [hlen, intRange_length]) ?_
    intro i h1 h2
    have hiln : i < (sortedGroup s pj pa).length := by
      simpa using h1
    have hisz : i < groupSize s pj pa := by rwa [hlen] at hiln
    rw [List.getElem_map, intRange_getElem 1 (groupSize s pj pa) i
      (by rw [intRange_length]; exact hisz)]
    have hx : (sortedGroup s pj pa)[i] ∈ sortedGroup s pj pa :=
      List.getElem_mem _
    have hmem : (sortedGroup s pj pa)[i] ∈ groupEntries s pj pa :=
      (sortedGroup_perm s pj pa).mem_iff.mp hx
    obtain ⟨-, hpj, hpa⟩ := mem_groupEntries.mp hmem
    rw [Function.comp_apply, normFn_of_mem s pj pa ⟨hpj, hpa⟩]
    have hsn : i < (sortedNotes s pj pa).length := by
      simpa [sortedNotes] using hiln
    have hnote : ((sortedGroup s pj pa)[i]).note = (sortedNotes s pj pa)[i] := by
      simp [sortedNotes]
    have hidx : (sortedNotes s pj pa).indexOf ((sortedGroup s pj pa)[i]).note
        = i := by
      rw [hnote]
      exact List.indexOf_getElem (sortedNotes_nodup hn pj pa) i hsn
    show ((sortedNotes s pj pa).indexOf ((sortedGroup s pj pa)[i]).note : Int)
        + 1 = 1 + (i : Int)
    rw [hidx]; omega
  rw [hEq]

/-- Normalizing an already-dense group changes nothing (idempotence /
self-healing is a no-op on healthy groups). -/
theorem normalize_of_dense {s : List Entry} (hn : NotesNodup s)
    {pj : Nat} {pa : Option Nat} (hd : DenseGroup s pj pa) :
    normalize_note_sequences s pj pa = s := by
  unfold normalize_note_sequences
  have hpt : ∀ x ∈ s, normFn s pj pa x = x := by
    intro x hx
    by_cases hg : x.project = pj ∧ x.parent = pa
    · have hge : x ∈ groupEntries s pj pa :=
        mem_groupEntries.mpr ⟨hx, hg.1, hg.2⟩
      have hsg : x ∈ sortedGroup s pj pa :=
        (sortedGroup_perm s pj pa).mem_iff.mpr hge
      obtain ⟨i, hi, hgi⟩ := List.getElem_of_mem hsg
      have hsn : i < (sortedNotes s pj pa).length := by
        simpa [sortedNotes] using hi
      have hidx : (sortedNotes s pj pa).indexOf x.note = i := by
        have hnote : x.note = (sortedNotes s pj pa)[i] := by
          simp [sortedNotes, hgi]
        rw [hnote]
        exact List.indexOf_getElem (sortedNotes_nodup hn pj pa) i hsn
      have hseq : x.seq = 1 + (i : Int) := by
        have hmapEq := sortedGroup_map_seq_of_dense hd
        have hb : i < ((sortedGroup s pj pa).map Entry.seq).length := by
          simpa using hi
        have h2 : ((sortedGroup s pj pa).map Entry.seq)[i] = x.seq := by
          simp [hgi]
        have h3 := List.getElem_of_eq hmapEq hb
        rw [h3, intRange_getElem 1 (groupSize s pj pa) i
          (by rw [intRange_length, ← sortedGroup_length]; exact hi)] at h2
        omega
      rw [normFn_of_mem s pj pa hg, hidx]
      exact Entry_update_seq_eq (by omega)
    · exact normFn_of_not_mem s pj pa hg
  rw [List.map_congr_left hpt, List.map_id']

/-- The sequence a normalize assigns to a group member is between 1 and the
group size. -/
theorem normFn_seq_bounds {s : List Entry} {pj : Nat} {pa : Option Nat}
    {x : Entry} (hx : x ∈ s) (hpj : x.project = pj) (hpa : x.parent = pa) :
    1 ≤ (normFn s pj pa x).seq ∧
      (normFn s pj pa x).seq ≤ (groupSize s pj pa : Int) := by
  rw [normFn_of_mem s pj pa ⟨hpj, hpa⟩]
  have hidx : (sortedNotes s pj pa).indexOf x.note <
      (sortedNotes s pj pa).length :=
    List.indexOf_lt_length.mpr (mem_sortedNotes hx hpj hpa)
  rw [sortedNotes_length] at hidx
  show 1 ≤ ((sortedNotes s pj pa).indexOf x.note : Int) + 1 ∧
    ((sortedNotes s pj pa).indexOf x.note : Int) + 1 ≤ (groupSize s pj pa : Int)
  omega

/-! ### Facts about deletion -/

theorem subset_cascadeFuel (notes : List Node) (dead : List Nat) (fuel : Nat) :
    ∀ x ∈ dead, x ∈ cascadeFuel notes dead fuel := by
  induction fuel generalizing dead with
  | zero => intro x hx; exact hx
  | succ k ih =>
    intro x hx
    exact ih (cascadeStep notes dead) x (List.mem_append_left _ hx)

theorem delete_entries_subset (notes : List Node) (s : List Entry)
    (root : Nat) : ∀ x ∈ (delete_note_tree notes s root).2, x ∈ s := by
  intro x hx
  have : x ∈ s.filter _ := hx
  exact (List.mem_filter.mp this).1

/-! ### Density of the empty group, and a bounded check for `AllDense` -/

theorem denseGroup_of_empty {s : List Entry} {pj : Nat} {pa : Option Nat}
    (h : groupEntries s pj pa = []) : DenseGroup s pj pa := by
  unfold DenseGroup groupSeqs groupSize
  rw [h]
  exact List.Perm.refl _

theorem allDense_of_check (s : List Entry)
    (h : ∀ k ∈ s.map (fun x => (x.project, x.parent)),
      DenseGroup s k.1 k.2) : AllDense s := by
  intro pj pa
  by_cases hk : (pj, pa) ∈ s.map (fun x => (x.project, x.parent))
  · exact h (pj, pa) hk
  · refine denseGroup_of_empty (List.filter_eq_nil_iff.mpr ?_)
    intro x hx hg
    simp only [inGroup, decide_eq_true_eq] at hg
    exact hk (by
      refine List.mem_map.mpr ⟨x, hx, ?_⟩
      simp [hg.1, hg.2])

/-! ### Claim theorems -/

/-- C8 (counterexample): a group corrupted to [A:2, B:2, C:1] (A = note 1,
B = note 2, C = note 3) does NOT normalize to the claimed [C:1, A:2, B:2]:
normalize always assigns the distinct ranks 1..N, so the result cannot keep
both A and B at sequence 2. -/
theorem C8_counterexample :
    normalize_note_sequences
        [⟨1, 0, none, 2⟩, ⟨2, 0, none, 2⟩, ⟨3, 0, none, 1⟩] 0 none ≠
      [⟨1, 0, none, 2⟩, ⟨2, 0, none, 2⟩, ⟨3, 0, none, 1⟩] := by decide

/-- C8 (amended): normalize iterates the group in order of current sequence —
the SQL orders by sequence only, and the embedding resolves the tie between
A and B by their stored order, A before B — and assigns the dense ranks 1..N,
so the corrupted group [A:2, B:2, C:1] normalizes to [C:1, A:2, B:3]
(deterministically in this embedding), not to [C:1, A:2, B:2]. -/
theorem C8_amended :
    normalize_note_sequences
        [⟨1, 0, none, 2⟩, ⟨2, 0, none, 2⟩, ⟨3, 0, none, 1⟩] 0 none =
      [⟨1, 0, none, 2⟩, ⟨2, 0, none, 3⟩, ⟨3, 0, none, 1⟩] := by decide

/-- C6 (counterexample): `move_note` contains no cycle check.  With note 20 a
child of note 10, moving note 10 under its own descendant 20 does not signal
any error and mutates the state, producing a two-node parent cycle. -/
theorem C6_counterexample :
    move_note_full [⟨10, 0, none⟩, ⟨20, 0, some 10⟩]
        [⟨10, 0, none, 1⟩, ⟨20, 0, some 10, 1⟩] 10 (some 20) 1 =
      some ([⟨10, 0, some 20⟩, ⟨20, 0, some 10⟩],
            [⟨10, 0, some 20, 1⟩, ⟨20, 0, some 10, 1⟩]) ∧
    ([(⟨10, 0, some 20⟩ : Node), ⟨20, 0, some 10⟩],
        [(⟨10, 0, some 20, 1⟩ : Entry), ⟨20, 0, some 10, 1⟩]) ≠
      ([⟨10, 0, none⟩, ⟨20, 0, some 10⟩],
        [⟨10, 0, none, 1⟩, ⟨20, 0, some 10, 1⟩]) := by decide

/-- C6 (amended): the operation performs no validation against moving a note
under itself or its own subtree: such a move is executed like any other
different-parent move, succeeds, and leaves a parent cycle in the store. -/
theorem C6_amended :
    move_note_full [⟨10, 0, none⟩, ⟨20, 0, some 10⟩]
        [⟨10, 0, none, 1⟩, ⟨20, 0, some 10, 1⟩] 10 (some 20) 1 =
      some ([⟨10, 0, some 20⟩, ⟨20, 0, some 10⟩],
            [⟨10, 0, some 20, 1⟩, ⟨20, 0, some 10, 1⟩]) ∧
    move_note [⟨10, 0, none, 1⟩] 10 (some 10) 1 =
      some [⟨10, 0, some 10, 1⟩] := by decide

/-- C5 (counterexample): there is no no-op short-circuit; a move of a note to
its current parent and current sequence still runs the full pipeline including
the final normalize, which rewrites a non-dense group: with the single-entry
group [note 1 at sequence 2], move(1, none, 2) changes the entry to
sequence 1. -/
theorem C5_counterexample :
    move_note [⟨1, 0, none, 2⟩] 1 none 2 = some [⟨1, 0, none, 1⟩] ∧
      [(⟨1, 0, none, 1⟩ : Entry)] ≠ [⟨1, 0, none, 2⟩] := by decide

/-- C1 (counterexample): `delete_note_tree` does not renumber the deleted
note's former sibling group, so density is not an invariant of delete: with
root notes [1 at seq 1, 2 at seq 2], deleting note 1 leaves the root group
with the single sequence {2}, not {1}. -/
theorem C1_counterexample :
    ¬ DenseGroup
        (delete_note_tree [⟨1, 0, none⟩, ⟨2, 0, none⟩]
          [⟨1, 0, none, 1⟩, ⟨2, 0, none, 2⟩] 1).2 0 none := by decide

/-- C7 (counterexample): on a 51-deep parent chain the descendant traversal of
`delete_note_tree` silently stops at depth 50 — the deepest note is missing
from the collected set — and the operation still completes normally; no
DepthLimitExceeded condition exists in the code. -/
theorem C7_counterexample :
    (51 ∉ collect_descendants chainNotes 1) ∧
    (collect_descendants chainNotes 1).length = 50 ∧
    delete_note_tree chainNotes [] 1 = ([], []) := by decide

/-- C7 (amended): reaching the depth cap is silent — the collected set is
truncated at depth 50 and no error is reported — but notes beyond the cap are
not orphaned either: the `ON DELETE CASCADE` foreign key on `notes.parent_id`
removes them (and their order entries) together with their deleted parents. -/
theorem C7_amended :
    (51 ∉ collect_descendants chainNotes 1) ∧
    (51 ∈ cascadeClosure chainNotes (collect_descendants chainNotes 1)) ∧
    delete_note_tree chainNotes [⟨51, 0, some 50, 1⟩] 1 = ([], []) := by decide

/-- C9: a successful `delete_note_tree` keeps the order entry of every
surviving note (a note outside the deleted closure whose parent also
survives) byte-for-byte — same parent, same sequence — and produces no other
entries, so no surviving sibling group is ever renumbered; the gap left in
the deleted note's former group stays. -/
theorem C9_delete_frame (notes : List Node) (s : List Entry) (root : Nat)
    {x : Entry} (hx : x ∈ s)
    (hnote : x.note ∉ cascadeClosure notes (collect_descendants notes root))
    (hpar : ∀ p, x.parent = some p →
      p ∉ cascadeClosure notes (collect_descendants notes root)) :
    x ∈ (delete_note_tree notes s root).2 ∧
      ∀ y ∈ (delete_note_tree notes s root).2, y ∈ s := by
  refine ⟨?_, delete_entries_subset notes s root⟩
  unfold delete_note_tree
  simp only
  refine List.mem_filter.mpr ⟨hx, ?_⟩
  have hd : x.note ∉ collect_descendants notes root := fun hmem =>
    hnote (subset_cascadeFuel notes _ notes.length x.note hmem)
  simp only [Bool.and_eq_true, decide_eq_true_eq]
  refine ⟨⟨hd, hnote⟩, ?_⟩
  cases hp : x.parent with
  | none => rfl
  | some p => simpa using hpar p hp

/-- Witness for C9 at a concrete store: delete note 1; the surviving root
note 2 keeps its entry (still sequence 2, leaving the gap at 1). -/
theorem C9_witness :
    ((⟨2, 0, none, 2⟩ : Entry) ∈ [(⟨1, 0, none, 1⟩ : Entry), ⟨2, 0, none, 2⟩]) ∧
    ((2 : Nat) ∉ cascadeClosure [⟨1, 0, none⟩, ⟨2, 0, none⟩]
      (collect_descendants [⟨1, 0, none⟩, ⟨2, 0, none⟩] 1)) ∧
    ((⟨2, 0, none, 2⟩ : Entry) ∈
        (delete_note_tree [⟨1, 0, none⟩, ⟨2, 0, none⟩]
          [⟨1, 0, none, 1⟩, ⟨2, 0, none, 2⟩] 1).2 ∧
      ∀ y ∈ (delete_note_tree [⟨1, 0, none⟩, ⟨2, 0, none⟩]
          [⟨1, 0, none, 1⟩, ⟨2, 0, none, 2⟩] 1).2,
        y ∈ [(⟨1, 0, none, 1⟩ : Entry), ⟨2, 0, none, 2⟩]) :=
  ⟨by decide, by decide,
    C9_delete_frame _ _ _ (by decide) (by decide)
      (fun p hp => Option.noConfusion hp)⟩

/-- C10: if the `note_sequences` insert fails after the note row was
inserted, `noteOperations.create` deletes the note row again before the error
is propagated; for a fresh note id the final state is exactly the pre-call
state, so a note is never left observable without an order entry after a
failed create. -/
theorem C10_create_rollback (notes : List Node) (s : List Entry) (pj : Nat)
    (pa : Option Nat) (noteId : Nat) (hfresh : noteId ∉ notes.map Node.id) :
    noteCreate notes s pj pa noteId true = (false, notes, s) := by
  unfold noteCreate
  simp only [if_pos]
  rw [List.filter_append]
  have h1 : notes.filter (fun nd => decide (nd.id ≠ noteId)) = notes := by
    refine List.filter_eq_self.mpr fun nd hnd => ?_
    simp only [decide_eq_true_eq]
    intro h
    exact hfresh (h ▸ List.mem_map_of_mem Node.id hnd)
  have h2 : ([{ id := noteId, project := pj, parent := pa }] : List Node).filter
      (fun nd => decide (nd.id ≠ noteId)) = [] := by simp
  rw [h1, h2, List.append_nil]

/-- Witness for C10: a failed sequence insert for fresh note 5 leaves the
store exactly as it was. -/
theorem C10_witness :
    ((5 : Nat) ∉ ([⟨1, 0, none⟩] : List Node).map Node.id) ∧
    noteCreate [⟨1, 0, none⟩] [⟨1, 0, none, 1⟩] 0 none 5 true =
      (false, [⟨1, 0, none⟩], [⟨1, 0, none, 1⟩]) :=
  ⟨by decide, C10_create_rollback _ _ _ _ _ (by decide)⟩

/-! ### Pointwise facts about the move steps -/

theorem Entry_ext {x y : Entry} (h1 : x.note = y.note)
    (h2 : x.project = y.project) (h3 : x.parent = y.parent)
    (h4 : x.seq = y.seq) : x = y := by
  cases x; cases y; simp_all

theorem parkFn_note (n : Nat) (npa : Option Nat) (x : Entry) :
    (parkFn n npa x).note = x.note := by unfold parkFn; split <;> rfl

theorem parkFn_project (n : Nat) (npa : Option Nat) (x : Entry) :
    (parkFn n npa x).project = x.project := by unfold parkFn; split <;> rfl

theorem parkFn_of_ne (n : Nat) (npa : Option Nat) {x : Entry}
    (h : x.note ≠ n) : parkFn n npa x = x := if_neg h

theorem parkFn_of_eq (n : Nat) (npa : Option Nat) {x : Entry}
    (h : x.note = n) :
    parkFn n npa x = { x with parent := npa, seq := tempSeq } := if_pos h

theorem decBetweenFn_note (pj : Nat) (pa : Option Nat) (lo hi : Int)
    (x : Entry) : (decBetweenFn pj pa lo hi x).note = x.note := by
  unfold decBetweenFn; split <;> rfl

theorem decBetweenFn_project (pj : Nat) (pa : Option Nat) (lo hi : Int)
    (x : Entry) : (decBetweenFn pj pa lo hi x).project = x.project := by
  unfold decBetweenFn; split <;> rfl

theorem decBetweenFn_parent (pj : Nat) (pa : Option Nat) (lo hi : Int)
    (x : Entry) : (decBetweenFn pj pa lo hi x).parent = x.parent := by
  unfold decBetweenFn; split <;> rfl

theorem incBetweenFn_note (pj : Nat) (pa : Option Nat) (lo hi : Int)
    (x : Entry) : (incBetweenFn pj pa lo hi x).note = x.note := by
  unfold incBetweenFn; split <;> rfl

theorem incBetweenFn_project (pj : Nat) (pa : Option Nat) (lo hi : Int)
    (x : Entry) : (incBetweenFn pj pa lo hi x).project = x.project := by
  unfold incBetweenFn; split <;> rfl

theorem incBetweenFn_parent (pj : Nat) (pa : Option Nat) (lo hi : Int)
    (x : Entry) : (incBetweenFn pj pa lo hi x).parent = x.parent := by
  unfold incBetweenFn; split <;> rfl

theorem decAboveFn_note (pj : Nat) (pa : Option Nat) (lo : Int) (x : Entry) :
    (decAboveFn pj pa lo x).note = x.note := by
  unfold decAboveFn; split <;> rfl

theorem decAboveFn_project (pj : Nat) (pa : Option Nat) (lo : Int)
    (x : Entry) : (decAboveFn pj pa lo x).project = x.project := by
  unfold decAboveFn; split <;> rfl

theorem decAboveFn_parent (pj : Nat) (pa : Option Nat) (lo : Int)
    (x : Entry) : (decAboveFn pj pa lo x).parent = x.parent := by
  unfold decAboveFn; split <;> rfl

theorem incFromFn_note (pj : Nat) (pa : Option Nat) (lo : Int) (x : Entry) :
    (incFromFn pj pa lo x).note = x.note := by
  unfold incFromFn; split <;> rfl

theorem incFromFn_project (pj : Nat) (pa : Option Nat) (lo : Int)
    (x : Entry) : (incFromFn pj pa lo x).project = x.project := by
  unfold incFromFn; split <;> rfl

theorem incFromFn_parent (pj : Nat) (pa : Option Nat) (lo : Int)
    (x : Entry) : (incFromFn pj pa lo x).parent = x.parent := by
  unfold incFromFn; split <;> rfl

/-- The combined STEP 3 shift of `move_note` as a single per-row function. -/
def shiftsFn (pj : Nat) (oldPa newPa : Option Nat) (oldSeq pos : Int)
    (x : Entry) : Entry :=
  if oldPa = newPa then
    if oldSeq < pos then decBetweenFn pj newPa oldSeq pos x
    else incBetweenFn pj newPa pos oldSeq x
  else incFromFn pj newPa pos (decAboveFn pj oldPa oldSeq x)

theorem shiftsFn_note (pj : Nat) (opa npa : Option Nat) (a p : Int)
    (x : Entry) : (shiftsFn pj opa npa a p x).note = x.note := by
  unfold shiftsFn
  split
  · split
    · exact decBetweenFn_note ..
    · exact incBetweenFn_note ..
  · rw [incFromFn_note, decAboveFn_note]

theorem shiftsFn_project (pj : Nat) (opa npa : Option Nat) (a p : Int)
    (x : Entry) : (shiftsFn pj opa npa a p x).project = x.project := by
  unfold shiftsFn
  split
  · split
    · exact decBetweenFn_project ..
    · exact incBetweenFn_project ..
  · rw [incFromFn_project, decAboveFn_project]

theorem shiftsFn_parent (pj : Nat) (opa npa : Option Nat) (a p : Int)
    (x : Entry) : (shiftsFn pj opa npa a p x).parent = x.parent := by
  unfold shiftsFn
  split
  · split
    · exact decBetweenFn_parent ..
    · exact incBetweenFn_parent ..
  · rw [incFromFn_parent, decAboveFn_parent]

theorem moveFn_eq_place_shifts_park (n : Nat) (pj : Nat)
    (opa npa : Option Nat) (a p : Int) (x : Entry) :
    moveFn n pj opa npa a p x =
      placeFn n p (shiftsFn pj opa npa a p (parkFn n npa x)) := by
  unfold moveFn shiftsFn
  split
  · split <;> rfl
  · rfl

theorem moveFn_note (n : Nat) (pj : Nat) (opa npa : Option Nat) (a p : Int)
    (x : Entry) : (moveFn n pj opa npa a p x).note = x.note := by
  rw [moveFn_eq_place_shifts_park]
  unfold placeFn
  split <;> rw [shiftsFn_note, parkFn_note]

theorem moveFn_of_moved (n : Nat) (pj : Nat) (opa npa : Option Nat)
    (a p : Int) {x : Entry} (hx : x.note = n) :
    moveFn n pj opa npa a p x = { x with parent := npa, seq := p } := by
  rw [moveFn_eq_place_shifts_park, parkFn_of_eq n npa hx]
  have hnote : (shiftsFn pj opa npa a p
      { x with parent := npa, seq := tempSeq }).note = x.note := by
    rw [shiftsFn_note]
  rw [placeFn, if_pos (by rw [hnote]; exact hx)]
  refine Entry_ext ?_ ?_ ?_ ?_
  · exact hnote
  · rw [shiftsFn_project]
  · rw [shiftsFn_parent]
  · rfl

theorem moveFn_of_other (n : Nat) (pj : Nat) (opa npa : Option Nat)
    (a p : Int) {x : Entry} (hx : x.note ≠ n) :
    moveFn n pj opa npa a p x = shiftsFn pj opa npa a p x := by
  rw [moveFn_eq_place_shifts_park, parkFn_of_ne n npa hx]
  rw [placeFn, if_neg (by rw [shiftsFn_note]; exact hx)]

/-! ### Rotation of a dense range: the arithmetic of the shift phases -/

theorem intRange_erase (N j : Nat) (h : j < N) :
    (intRange 1 N).erase (1 + (j : Int)) =
      intRange 1 j ++ intRange (2 + (j : Int)) (N - j - 1) := by
  have hsplit : intRange 1 N = intRange 1 j ++
      ((1 + (j : Int)) :: intRange (2 + (j : Int)) (N - j - 1)) := by
    have hN : j + ((N - j - 1) + 1) = N := by omega
    calc intRange 1 N = intRange 1 (j + ((N - j - 1) + 1)) := by rw [hN]
      _ = intRange 1 j ++ intRange (1 + (j : Int)) ((N - j - 1) + 1) :=
        intRange_append 1 j _
      _ = intRange 1 j ++
          ((1 + (j : Int)) :: intRange (1 + (j : Int) + 1) (N - j - 1)) := rfl
      _ = intRange 1 j ++
          ((1 + (j : Int)) :: intRange (2 + (j : Int)) (N - j - 1)) := by
        rw [show (1 : Int) + (j : Int) + 1 = 2 + (j : Int) from by ring]
  rw [hsplit, List.erase_append_right _ (by
    intro hmem
    have := mem_intRange.mp hmem
    omega)]
  congr 1
  exact List.erase_cons_head _ _

theorem rot_perm_fwd (N j i : Nat) (hji : j < i) (hiN : i < N) :
    ((1 + (i : Int)) ::
      (((intRange 1 N).erase (1 + (j : Int))).map
        (fun b => if 1 + (j : Int) < b ∧ b ≤ 1 + (i : Int) then b - 1
          else b))).Perm
      (intRange 1 N) := by
  have hjN : j < N := lt_trans hji hiN
  rw [intRange_erase N j hjN, List.map_append]
  have hA : (intRange 1 j).map
      (fun b => if 1 + (j : Int) < b ∧ b ≤ 1 + (i : Int) then b - 1 else b) =
      intRange 1 j := by
    rw [List.map_congr_left (fun b hb => by
      have := mem_intRange.mp hb
      rw [if_neg (by omega)]), List.map_id']
  have hsplit : N - j - 1 = (i - j) + (N - 1 - i) := by omega
  rw [hA, hsplit, intRange_append (2 + (j : Int)) (i - j) (N - 1 - i),
    List.map_append]
  have hstart : 2 + (j : Int) + ((i - j : Nat) : Int) = 2 + (i : Int) := by
    have : ((i - j : Nat) : Int) = (i : Int) - (j : Int) := by
      push_cast [Nat.cast_sub (le_of_lt hji)]; ring
    rw [this]; ring
  rw [hstart]
  have hB1 : (intRange (2 + (j : Int)) (i - j)).map
      (fun b => if 1 + (j : Int) < b ∧ b ≤ 1 + (i : Int) then b - 1 else b) =
      intRange (1 + (j : Int)) (i - j) := by
    have h1 : (intRange (2 + (j : Int)) (i - j)).map
        (fun b => if 1 + (j : Int) < b ∧ b ≤ 1 + (i : Int) then b - 1 else b)
        = (intRange (2 + (j : Int)) (i - j)).map (fun b => b + (-1)) := by
      refine List.map_congr_left fun b hb => ?_
      have hm := mem_intRange.mp hb
      have : ((i - j : Nat) : Int) = (i : Int) - (j : Int) := by
        push_cast [Nat.cast_sub (le_of_lt hji)]; ring
      rw [this] at hm
      rw [if_pos (by constructor <;> omega)]
      ring
    rw [h1, intRange_map_add]
    have : 2 + (j : Int) + (-1) = 1 + (j : Int) := by ring
    rw [this]
  have hB2 : (intRange (2 + (i : Int)) (N - 1 - i)).map
      (fun b => if 1 + (j : Int) < b ∧ b ≤ 1 + (i : Int) then b - 1 else b) =
      intRange (2 + (i : Int)) (N - 1 - i) := by
    rw [List.map_congr_left (fun b hb => by
      have := mem_intRange.mp hb
      rw [if_neg (by omega)]), List.map_id']
  rw [hB1, hB2]
  have hAB : intRange 1 j ++ intRange (1 + (j : Int)) (i - j) =
      intRange 1 i := by
    have h1 : i = j + (i - j) := by omega
    conv_rhs => rw [h1]
    rw [intRange_append 1 j (i - j)]
  rw [← List.append_assoc, hAB]
  refine (List.perm_middle.symm).trans ?_
  have hcons : (1 + (i : Int)) :: intRange (2 + (i : Int)) (N - 1 - i) =
      intRange (1 + (i : Int)) (N - i) := by
    have h1 : N - i = (N - 1 - i) + 1 := by omega
    rw [h1, ← intRange_one_cons]
    have : 1 + (i : Int) + 1 = 2 + (i : Int) := by ring
    rw [this]
  rw [hcons]
  have hfin : intRange 1 i ++ intRange (1 + (i : Int)) (N - i) =
      intRange 1 N := by
    have h1 : N = i + (N - i) := by omega
    conv_rhs => rw [h1]
    rw [intRange_append 1 i (N - i)]
  rw [hfin]

theorem rot_perm_bwd (N j i : Nat) (hij : i < j) (hjN : j < N) :
    ((1 + (i : Int)) ::
      (((intRange 1 N).erase (1 + (j : Int))).map
        (fun b => if 1 + (i : Int) ≤ b ∧ b < 1 + (j : Int) then b + 1
          else b))).Perm
      (intRange 1 N) := by
  rw [intRange_erase N j hjN]
  have hsplitA : intRange 1 j =
      intRange 1 i ++ intRange (1 + (i : Int)) (j - i) := by
    have h1 : j = i + (j - i) := by omega
    conv_lhs => rw [h1]
    exact intRange_append 1 i (j - i)
  rw [hsplitA, List.append_assoc, List.map_append, List.map_append]
  have hA : (intRange 1 i).map
      (fun b => if 1 + (i : Int) ≤ b ∧ b < 1 + (j : Int) then b + 1 else b) =
      intRange 1 i := by
    rw [List.map_congr_left (fun b hb => by
      have := mem_intRange.mp hb
      rw [if_neg (by omega)]), List.map_id']
  have hij' : ((j - i : Nat) : Int) = (j : Int) - (i : Int) := by
    push_cast [Nat.cast_sub (le_of_lt hij)]; ring
  have hB : (intRange (1 + (i : Int)) (j - i)).map
      (fun b => if 1 + (i : Int) ≤ b ∧ b < 1 + (j : Int) then b + 1 else b) =
      intRange (2 + (i : Int)) (j - i) := by
    have h1 : (intRange (1 + (i : Int)) (j - i)).map
        (fun b => if 1 + (i : Int) ≤ b ∧ b < 1 + (j : Int) then b + 1 else b)
        = (intRange (1 + (i : Int)) (j - i)).map (fun b => b + 1) := by
      refine List.map_congr_left fun b hb => ?_
      have hm := mem_intRange.mp hb
      rw [hij'] at hm
      rw [if_pos (by constructor <;> omega)]
    rw [h1, intRange_map_add]
    rw [show (1 : Int) + (i : Int) + 1 = 2 + (i : Int) from by ring]
  have hC : (intRange (2 + (j : Int)) (N - j - 1)).map
      (fun b => if 1 + (i : Int) ≤ b ∧ b < 1 + (j : Int) then b + 1 else b) =
      intRange (2 + (j : Int)) (N - j - 1) := by
    rw [List.map_congr_left (fun b hb => by
      have := mem_intRange.mp hb
      rw [if_neg (by omega)]), List.map_id']
  rw [hA, hB, hC]
  refine (List.perm_middle.symm).trans ?_
  have hcons : ((1 + (i : Int)) :: (intRange (2 + (i : Int)) (j - i) ++
      intRange (2 + (j : Int)) (N - j - 1))) =
      intRange (1 + (i : Int)) (j - i + 1) ++
        intRange (2 + (j : Int)) (N - j - 1) := by
    rw [← List.cons_append]
    congr 1
    rw [show j - i + 1 = (j - i) + 1 from rfl, ← intRange_one_cons]
    rw [show (1 : Int) + (i : Int) + 1 = 2 + (i : Int) from by ring]
  rw [hcons]
  have hBC : intRange (1 + (i : Int)) (j - i + 1) ++
      intRange (2 + (j : Int)) (N - j - 1) =
      intRange (1 + (i : Int)) (N - i) := by
    have h2 : ((j - i + 1 : Nat) : Int) = (j : Int) - (i : Int) + 1 := by
      push_cast [Nat.cast_sub (le_of_lt hij)]; ring
    have h3 : (2 : Int) + (j : Int) =
        (1 + (i : Int)) + ((j - i + 1 : Nat) : Int) := by
      rw [h2]; ring
    rw [h3, ← intRange_append (1 + (i : Int)) (j - i + 1) (N - j - 1)]
    congr 1
    omega
  rw [hBC]
  have hfin : intRange 1 i ++ intRange (1 + (i : Int)) (N - i) =
      intRange 1 N := by
    have h1 : N = i + (N - i) := by omega
    conv_rhs => rw [h1]
    exact (intRange_append 1 i (N - i)).symm
  rw [hfin]

theorem gap_close_perm (N j : Nat) (hjN : j < N) :
    (((intRange 1 N).erase (1 + (j : Int))).map
      (fun b => if 1 + (j : Int) < b then b - 1 else b)).Perm
      (intRange 1 (N - 1)) := by
  rw [intRange_erase N j hjN, List.map_append]
  have hA : (intRange 1 j).map
      (fun b => if 1 + (j : Int) < b then b - 1 else b) = intRange 1 j := by
    rw [List.map_congr_left (fun b hb => by
      have := mem_intRange.mp hb
      rw [if_neg (by omega)]), List.map_id']
  have hB : (intRange (2 + (j : Int)) (N - j - 1)).map
      (fun b => if 1 + (j : Int) < b then b - 1 else b) =
      intRange (1 + (j : Int)) (N - j - 1) := by
    have h1 : (intRange (2 + (j : Int)) (N - j - 1)).map
        (fun b => if 1 + (j : Int) < b then b - 1 else b) =
        (intRange (2 + (j : Int)) (N - j - 1)).map (fun b => b + (-1)) := by
      refine List.map_congr_left fun b hb => ?_
      have hm := mem_intRange.mp hb
      rw [if_pos (by omega)]
      ring
    rw [h1, intRange_map_add]
    rw [show (2 : Int) + (j : Int) + (-1) = 1 + (j : Int) from by ring]
  rw [hA, hB]
  have hfin : intRange 1 j ++ intRange (1 + (j : Int)) (N - j - 1) =
      intRange 1 (N - 1) := by
    have h1 : N - 1 = j + (N - j - 1) := by omega
    rw [h1]
    exact (intRange_append 1 j (N - j - 1)).symm
  rw [hfin]

theorem make_space_perm (M i : Nat) (hi : i ≤ M) :
    ((1 + (i : Int)) ::
      ((intRange 1 M).map
        (fun b => if 1 + (i : Int) ≤ b then b + 1 else b))).Perm
      (intRange 1 (M + 1)) := by
  have hsplit : intRange 1 M =
      intRange 1 i ++ intRange (1 + (i : Int)) (M - i) := by
    have h1 : M = i + (M - i) := by omega
    conv_lhs => rw [h1]
    exact intRange_append 1 i (M - i)
  rw [hsplit, List.map_append]
  have hA : (intRange 1 i).map
      (fun b => if 1 + (i : Int) ≤ b then b + 1 else b) = intRange 1 i := by
    rw [List.map_congr_left (fun b hb => by
      have := mem_intRange.mp hb
      rw [if_neg (by omega)]), List.map_id']
  have hB : (intRange (1 + (i : Int)) (M - i)).map
      (fun b => if 1 + (i : Int) ≤ b then b + 1 else b) =
      intRange (2 + (i : Int)) (M - i) := by
    have h1 : (intRange (1 + (i : Int)) (M - i)).map
        (fun b => if 1 + (i : Int) ≤ b then b + 1 else b) =
        (intRange (1 + (i : Int)) (M - i)).map (fun b => b + 1) := by
      refine List.map_congr_left fun b hb => ?_
      have hm := mem_intRange.mp hb
      rw [if_pos (by omega)]
    rw [h1, intRange_map_add]
    rw [show (1 : Int) + (i : Int) + 1 = 2 + (i : Int) from by ring]
  rw [hA, hB]
  refine (List.perm_middle.symm).trans ?_
  have hcons : ((1 + (i : Int)) :: intRange (2 + (i : Int)) (M - i)) =
      intRange (1 + (i : Int)) (M - i + 1) := by
    rw [show M - i + 1 = (M - i) + 1 from rfl, ← intRange_one_cons]
    rw [show (1 : Int) + (i : Int) + 1 = 2 + (i : Int) from by ring]
  rw [hcons]
  have hfin : intRange 1 i ++ intRange (1 + (i : Int)) (M - i + 1) =
      intRange 1 (M + 1) := by
    have h1 : M + 1 = i + (M - i + 1) := by omega
    rw [h1]
    exact (intRange_append 1 i (M - i + 1)).symm
  rw [hfin]

/-! ### Decomposing a group around the moved row -/

theorem filter_or_single {s : List Entry} (hn : NotesNodup s) {e : Entry}
    (he : e ∈ s) (q : Entry → Bool) (hq : q e = false) :
    (s.filter (fun x => decide (x.note = e.note) || q x)).Perm
      (e :: s.filter q) := by
  induction s with
  | nil => cases he
  | cons a t ih =>
    simp only [NotesNodup, List.map_cons, List.nodup_cons] at hn
    rcases List.mem_cons.mp he with rfl | het
    · have hnt : ∀ x ∈ t, (decide (x.note = e.note) || q x) = q x := by
        intro x hx
        have hne : x.note ≠ e.note := fun hc =>
          hn.1 (hc ▸ List.mem_map_of_mem Entry.note hx)
        simp [hne]
      rw [List.filter_cons, List.filter_cons]
      have h1 : (decide (e.note = e.note) || q e) = true := by simp
      rw [if_pos h1, if_neg (by rw [hq]; simp)]
      exact List.Perm.cons e (by rw [List.filter_congr hnt])
    · have hat : a.note ≠ e.note := fun hc =>
        hn.1 (by rw [hc]; exact List.mem_map_of_mem Entry.note het)
      rw [List.filter_cons, List.filter_cons]
      have hor : (decide (a.note = e.note) || q a) = q a := by simp [hat]
      rw [hor]
      cases hqa : q a with
      | false =>
        rw [if_neg (by simp), if_neg (by simp)]
        exact ih hn.2 het
      | true =>
        rw [if_pos rfl, if_pos rfl]
        exact (List.Perm.cons a (ih hn.2 het)).trans (List.Perm.swap e a _)

theorem notes_ne_of_decomp {l u v : List Entry} {e : Entry}
    (h : l = u ++ e :: v) (hn : (l.map Entry.note).Nodup) :
    (∀ x ∈ u, x.note ≠ e.note) ∧ (∀ x ∈ v, x.note ≠ e.note) := by
  subst h
  rw [List.map_append, List.map_cons, List.nodup_append] at hn
  obtain ⟨-, hcons, hdisj⟩ := hn
  constructor
  · intro x hx hc
    exact hdisj (List.mem_map_of_mem Entry.note hx)
      (by rw [hc]; exact List.mem_cons_self _ _)
  · intro x hx hc
    rw [List.nodup_cons] at hcons
    exact hcons.1 (hc ▸ List.mem_map_of_mem Entry.note hx)

theorem filter_ne_of_decomp {u v : List Entry} {e : Entry}
    (hu : ∀ x ∈ u, x.note ≠ e.note) (hv : ∀ x ∈ v, x.note ≠ e.note) :
    ((u ++ e :: v).filter (fun x => decide (x.note ≠ e.note))) = u ++ v := by
  rw [List.filter_append, List.filter_cons]
  rw [if_neg (by simp)]
  rw [List.filter_eq_self.mpr (fun x hx => by simp [hu x hx]),
    List.filter_eq_self.mpr (fun x hx => by simp [hv x hx])]

/-! ### How the park/shift/place pipeline transforms each sibling group -/

theorem shiftsFn_of_key_ne (pj : Nat) (opa npa : Option Nat) (a p : Int)
    {x : Entry} (h1 : ¬(x.project = pj ∧ x.parent = opa))
    (h2 : ¬(x.project = pj ∧ x.parent = npa)) :
    shiftsFn pj opa npa a p x = x := by
  have hdec : decBetweenFn pj npa a p x = x :=
    if_neg (fun hc => h2 ⟨hc.1, hc.2.1⟩)
  have hinc : incBetweenFn pj npa p a x = x :=
    if_neg (fun hc => h2 ⟨hc.1, hc.2.1⟩)
  have hda : decAboveFn pj opa a x = x :=
    if_neg (fun hc => h1 ⟨hc.1, hc.2.1⟩)
  have hif : incFromFn pj npa p x = x :=
    if_neg (fun hc => h2 ⟨hc.1, hc.2.1⟩)
  unfold shiftsFn
  split
  · split
    · exact hdec
    · exact hinc
  · rw [hda, hif]

theorem map_moveFn_notes_nodup {s : List Entry} (hn : NotesNodup s)
    (n : Nat) (pj : Nat) (opa npa : Option Nat) (a p : Int) :
    NotesNodup (s.map (moveFn n pj opa npa a p)) := by
  unfold NotesNodup
  rw [List.map_map]
  have : (Entry.note ∘ moveFn n pj opa npa a p) = Entry.note :=
    funext fun x => moveFn_note n pj opa npa a p x
  rw [this]
  exact hn

theorem groupEntries_map_moveFn_same (s : List Entry) (hn : NotesNodup s)
    {n : Nat} {e : Entry} (he : e ∈ s) (hen : e.note = n)
    (pj : Nat) (npa : Option Nat) (hpe : e.parent = npa) (a p : Int)
    (k1 : Nat) (k2 : Option Nat) :
    groupEntries (s.map (moveFn n pj npa npa a p)) k1 k2 =
      (groupEntries s k1 k2).map (moveFn n pj npa npa a p) := by
  refine groupEntries_map_of _ fun x hx => ?_
  by_cases hxn : x.note = n
  · have hxe : x = e := note_inj hn hx he (by rw [hxn, hen])
    subst hxe
    rw [moveFn_of_moved _ _ _ _ _ _ hxn]
    show decide (x.project = k1 ∧ npa = k2) =
      decide (x.project = k1 ∧ x.parent = k2)
    rw [← hpe]
  · rw [moveFn_of_other _ _ _ _ _ _ hxn]
    simp only [inGroup]
    rw [shiftsFn_project, shiftsFn_parent]

theorem groupEntries_map_moveFn_other_key (s : List Entry)
    (hn : NotesNodup s) {n : Nat} {e : Entry} (he : e ∈ s) (hen : e.note = n)
    {pj : Nat} {opa npa : Option Nat} (hpj : e.project = pj)
    (hpe : e.parent = opa) (a p : Int) {k1 : Nat} {k2 : Option Nat}
    (hk1 : ¬(k1 = pj ∧ k2 = opa)) (hk2 : ¬(k1 = pj ∧ k2 = npa)) :
    groupEntries (s.map (moveFn n pj opa npa a p)) k1 k2 =
      groupEntries s k1 k2 := by
  have hstep : groupEntries (s.map (moveFn n pj opa npa a p)) k1 k2 =
      (groupEntries s k1 k2).map (moveFn n pj opa npa a p) := by
    refine groupEntries_map_of _ fun x hx => ?_
    by_cases hxn : x.note = n
    · have hxe : x = e := note_inj hn hx he (by rw [hxn, hen])
      subst hxe
      rw [moveFn_of_moved _ _ _ _ _ _ hxn]
      have h1 : ¬(x.project = k1 ∧ npa = k2) := fun hc =>
        hk2 ⟨by rw [← hc.1, hpj], hc.2.symm⟩
      have h2 : ¬(x.project = k1 ∧ x.parent = k2) := fun hc =>
        hk1 ⟨by rw [← hc.1, hpj], by rw [← hc.2, hpe]⟩
      show decide (x.project = k1 ∧ npa = k2) =
        decide (x.project = k1 ∧ x.parent = k2)
      rw [decide_eq_false h1, decide_eq_false h2]
    · rw [moveFn_of_other _ _ _ _ _ _ hxn]
      simp only [inGroup]
      rw [shiftsFn_project, shiftsFn_parent]
  rw [hstep]
  have hid : ∀ x ∈ groupEntries s k1 k2, moveFn n pj opa npa a p x = x := by
    intro x hx
    obtain ⟨hxs, hx1, hx2⟩ := mem_groupEntries.mp hx
    have hxn : x.note ≠ n := by
      intro hc
      have hxe : x = e := note_inj hn hxs he (by rw [hc, hen])
      exact hk1 ⟨by rw [← hx1, hxe, hpj], by rw [← hx2, hxe, hpe]⟩
    rw [moveFn_of_other _ _ _ _ _ _ hxn]
    refine shiftsFn_of_key_ne pj opa npa a p ?_ ?_
    · intro hc
      exact hk1 ⟨by rw [← hx1, hc.1], by rw [← hx2, hc.2]⟩
    · intro hc
      exact hk2 ⟨by rw [← hx1, hc.1], by rw [← hx2, hc.2]⟩
  rw [List.map_congr_left hid, List.map_id']

theorem groupEntries_map_moveFn_old (s : List Entry) (hn : NotesNodup s)
    {n : Nat} {e : Entry} (he : e ∈ s) (hen : e.note = n)
    {pj : Nat} {opa npa : Option Nat} (hpj : e.project = pj)
    (hpe : e.parent = opa) (hdiff : opa ≠ npa) (a p : Int) :
    groupEntries (s.map (moveFn n pj opa npa a p)) pj opa =
      ((groupEntries s pj opa).filter
        (fun x => decide (x.note ≠ n))).map (moveFn n pj opa npa a p) := by
  have hstep : groupEntries (s.map (moveFn n pj opa npa a p)) pj opa =
      (s.filter (fun x => inGroup pj opa x && decide (x.note ≠ n))).map
        (moveFn n pj opa npa a p) := by
    refine filter_map_of s _ _ _ fun x hx => ?_
    by_cases hxn : x.note = n
    · have hxe : x = e := note_inj hn hx he (by rw [hxn, hen])
      subst hxe
      rw [moveFn_of_moved _ _ _ _ _ _ hxn]
      have h1 : ¬(x.project = pj ∧ npa = opa) := fun hc => hdiff hc.2.symm
      have h2 : decide (x.note ≠ n) = false := by simp [hxn]
      show decide (x.project = pj ∧ npa = opa) =
        (inGroup pj opa x && decide (x.note ≠ n))
      rw [decide_eq_false h1, h2, Bool.and_false]
    · rw [moveFn_of_other _ _ _ _ _ _ hxn]
      have h2 : decide (x.note ≠ n) = true := by simp [hxn]
      rw [h2, Bool.and_true]
      simp only [inGroup]
      rw [shiftsFn_project, shiftsFn_parent]
  rw [hstep]
  congr 1
  rw [groupEntries, List.filter_filter]
  refine List.filter_congr fun x hx => ?_
  rw [Bool.and_comm]

theorem groupEntries_map_moveFn_new (s : List Entry) (hn : NotesNodup s)
    {n : Nat} {e : Entry} (he : e ∈ s) (hen : e.note = n)
    {pj : Nat} {opa npa : Option Nat} (hpj : e.project = pj)
    (hpe : e.parent = opa) (hdiff : opa ≠ npa) (a p : Int) :
    (groupEntries (s.map (moveFn n pj opa npa a p)) pj npa).Perm
      (moveFn n pj opa npa a p e ::
        (groupEntries s pj npa).map (moveFn n pj opa npa a p)) := by
  have hstep : groupEntries (s.map (moveFn n pj opa npa a p)) pj npa =
      (s.filter (fun x => decide (x.note = e.note) || inGroup pj npa x)).map
        (moveFn n pj opa npa a p) := by
    refine filter_map_of s _ _ _ fun x hx => ?_
    by_cases hxn : x.note = n
    · have hxe : x = e := note_inj hn hx he (by rw [hxn, hen])
      subst hxe
      rw [moveFn_of_moved _ _ _ _ _ _ hxn]
      have h1 : (x.project = pj ∧ npa = npa) := ⟨hpj, rfl⟩
      have h2 : decide (x.note = x.note) = true := by simp
      show decide (x.project = pj ∧ npa = npa) =
        (decide (x.note = x.note) || inGroup pj npa x)
      rw [decide_eq_true h1, h2, Bool.true_or]
    · rw [moveFn_of_other _ _ _ _ _ _ hxn]
      have h2 : decide (x.note = e.note) = false := by
        simp only [decide_eq_false_iff_not]
        rw [hen]; exact hxn
      rw [h2, Bool.false_or]
      simp only [inGroup]
      rw [shiftsFn_project, shiftsFn_parent]
  rw [hstep]
  have hq : inGroup pj npa e = false := by
    refine decide_eq_false fun hc => hdiff ?_
    rw [← hpe, hc.2]
  exact (filter_or_single hn he (inGroup pj npa) hq).map _

/-! ### The sequence arithmetic of the shifts on unmoved rows -/

theorem shiftsFn_seq_same (pj : Nat) (npa : Option Nat) (a p : Int)
    {x : Entry} (hx1 : x.project = pj) (hx2 : x.parent = npa) :
    (shiftsFn pj npa npa a p x).seq =
      if a < p then (if a < x.seq ∧ x.seq ≤ p then x.seq - 1 else x.seq)
      else (if p ≤ x.seq ∧ x.seq < a then x.seq + 1 else x.seq) := by
  unfold shiftsFn
  rw [if_pos rfl]
  split
  · unfold decBetweenFn
    by_cases hr : a < x.seq ∧ x.seq ≤ p
    · rw [if_pos ⟨hx1, hx2, hr.1, hr.2⟩, if_pos hr]
    · rw [if_neg (fun hc => hr ⟨hc.2.2.1, hc.2.2.2⟩), if_neg hr]
  · unfold incBetweenFn
    by_cases hr : p ≤ x.seq ∧ x.seq < a
    · rw [if_pos ⟨hx1, hx2, hr.1, hr.2⟩, if_pos hr]
    · rw [if_neg (fun hc => hr ⟨hc.2.2.1, hc.2.2.2⟩), if_neg hr]

theorem shiftsFn_seq_old (pj : Nat) (opa npa : Option Nat) (a p : Int)
    (hdiff : opa ≠ npa) {x : Entry} (hx1 : x.project = pj)
    (hx2 : x.parent = opa) :
    (shiftsFn pj opa npa a p x).seq =
      if a < x.seq then x.seq - 1 else x.seq := by
  unfold shiftsFn
  rw [if_neg hdiff]
  unfold decAboveFn
  by_cases hr : a < x.seq
  · rw [if_pos ⟨hx1, hx2, hr⟩, if_pos hr]
    unfold incFromFn
    rw [if_neg (fun hc => hdiff (by rw [← hx2]; exact hc.2.1.symm ▸ rfl))]
  · rw [if_neg (fun hc => hr hc.2.2), if_neg hr]
    unfold incFromFn
    rw [if_neg (fun hc => hdiff (by rw [← hx2, hc.2.1]))]

theorem shiftsFn_seq_new (pj : Nat) (opa npa : Option Nat) (a p : Int)
    (hdiff : opa ≠ npa) {x : Entry} (hx1 : x.project = pj)
    (hx2 : x.parent = npa) :
    (shiftsFn pj opa npa a p x).seq =
      if p ≤ x.seq then x.seq + 1 else x.seq := by
  unfold shiftsFn
  rw [if_neg hdiff]
  unfold decAboveFn
  rw [if_neg (fun hc => hdiff (by rw [← hx2, hc.2.1]))]
  unfold incFromFn
  by_cases hr : p ≤ x.seq
  · rw [if_pos ⟨hx1, hx2, hr⟩, if_pos hr]
  · rw [if_neg (fun hc => hr hc.2.2), if_neg hr]

/-! ### Density of the affected groups after park/shift/place -/

theorem seqs_decomp_perm {s : List Entry} {pj : Nat} {pa : Option Nat}
    {e : Entry} {u v : List Entry}
    (huv : groupEntries s pj pa = u ++ e :: v)
    (hd : DenseGroup s pj pa) :
    (e.seq :: ((u ++ v).map Entry.seq)).Perm
      (intRange 1 (groupSize s pj pa)) := by
  have h1 : groupSeqs s pj pa =
      u.map Entry.seq ++ e.seq :: v.map Entry.seq := by
    rw [groupSeqs, huv, List.map_append, List.map_cons]
  have h2 : (u.map Entry.seq ++ e.seq :: v.map Entry.seq).Perm
      (e.seq :: ((u ++ v).map Entry.seq)) := by
    rw [List.map_append]
    exact List.perm_middle
  exact (h2.symm.trans (h1 ▸ hd))

theorem seqs_erase_perm {s : List Entry} {pj : Nat} {pa : Option Nat}
    {e : Entry} {u v : List Entry}
    (huv : groupEntries s pj pa = u ++ e :: v)
    (hd : DenseGroup s pj pa) :
    ((u ++ v).map Entry.seq).Perm
      ((intRange 1 (groupSize s pj pa)).erase e.seq) := by
  have hmain := seqs_decomp_perm huv hd
  have hmem : e.seq ∈ intRange 1 (groupSize s pj pa) :=
    hmain.mem_iff.mp (List.mem_cons_self _ _)
  exact (hmain.trans (List.perm_cons_erase hmem)).cons_inv

theorem seq_bounds_of_dense {s : List Entry} {pj : Nat} {pa : Option Nat}
    {e : Entry} (he : e ∈ s) (hpj : e.project = pj) (hpe : e.parent = pa)
    (hd : DenseGroup s pj pa) :
    1 ≤ e.seq ∧ e.seq < 1 + (groupSize s pj pa : Int) := by
  have hEg : e ∈ groupEntries s pj pa := mem_groupEntries.mpr ⟨he, hpj, hpe⟩
  have hmem : e.seq ∈ groupSeqs s pj pa := List.mem_map_of_mem Entry.seq hEg
  exact mem_intRange.mp (hd.mem_iff.mp hmem)

theorem dense_moveFn_same (s : List Entry) (hn : NotesNodup s)
    {n : Nat} {e : Entry} (he : e ∈ s) (hen : e.note = n)
    {pj : Nat} {npa : Option Nat} (hpj : e.project = pj) (hpe : e.parent = npa)
    {p : Int} (hp1 : 1 ≤ p) (hp2 : p ≤ (groupSize s pj npa : Int))
    (hd : DenseGroup s pj npa) :
    DenseGroup (s.map (moveFn n pj npa npa e.seq p)) pj npa := by
  have hEg : e ∈ groupEntries s pj npa := mem_groupEntries.mpr ⟨he, hpj, hpe⟩
  obtain ⟨u, v, huv⟩ := List.append_of_mem hEg
  obtain ⟨hu, hv⟩ := notes_ne_of_decomp huv (groupEntries_notes_nodup hn pj npa)
  have hge := groupEntries_map_moveFn_same s hn he hen pj npa hpe e.seq p pj npa
  have hsize : groupSize (s.map (moveFn n pj npa npa e.seq p)) pj npa =
      groupSize s pj npa := by
    rw [groupSize, hge, List.length_map, groupSize]
  obtain ⟨ha1, ha2⟩ := seq_bounds_of_dense he hpj hpe hd
  unfold DenseGroup
  rw [hsize, groupSeqs, hge, huv, List.map_append, List.map_cons,
    List.map_append, List.map_cons]
  have hFe : (moveFn n pj npa npa e.seq p e).seq = p := by
    rw [moveFn_of_moved _ _ _ _ _ _ hen]
  rw [hFe]
  refine List.perm_middle.trans ?_
  have hpt : ∀ x ∈ u ++ v, (moveFn n pj npa npa e.seq p x).seq =
      (if e.seq < p then
        (if e.seq < x.seq ∧ x.seq ≤ p then x.seq - 1 else x.seq)
      else (if p ≤ x.seq ∧ x.seq < e.seq then x.seq + 1 else x.seq)) := by
    intro x hx
    have hxg : x ∈ groupEntries s pj npa := by
      rw [huv]
      rcases List.mem_append.mp hx with h | h
      · exact List.mem_append_left _ h
      · exact List.mem_append_right _ (List.mem_cons_of_mem _ h)
    obtain ⟨-, hx1, hx2⟩ := mem_groupEntries.mp hxg
    have hxn : x.note ≠ n := by
      rcases List.mem_append.mp hx with h | h
      · rw [← hen]; exact hu x h
      · rw [← hen]; exact hv x h
    rw [moveFn_of_other _ _ _ _ _ _ hxn]
    exact shiftsFn_seq_same pj npa e.seq p hx1 hx2
  have hmaps : ((u ++ v).map (moveFn n pj npa npa e.seq p)).map Entry.seq =
      ((u ++ v).map Entry.seq).map
        (fun b => if e.seq < p then
          (if e.seq < b ∧ b ≤ p then b - 1 else b)
        else (if p ≤ b ∧ b < e.seq then b + 1 else b)) := by
    rw [List.map_map, List.map_map]
    exact List.map_congr_left fun x hx => hpt x hx
  rw [← List.map_append, ← List.map_append, hmaps]
  have herase := seqs_erase_perm huv hd
  refine (List.Perm.cons p (herase.map _)).trans ?_
  set N := groupSize s pj npa with hN
  obtain ⟨j, hja, hjN⟩ : ∃ j : Nat, e.seq = 1 + (j : Int) ∧ j < N := by
    refine ⟨(e.seq - 1).toNat, by omega, by omega⟩
  obtain ⟨i, hip, hiN⟩ : ∃ i : Nat, p = 1 + (i : Int) ∧ i < N := by
    refine ⟨(p - 1).toNat, by omega, by omega⟩
  rcases lt_trichotomy e.seq p with hap | hap | hap
  · have hji : j < i := by omega
    have hcongr : ((intRange 1 N).erase e.seq).map
        (fun b => if e.seq < p then
          (if e.seq < b ∧ b ≤ p then b - 1 else b)
        else (if p ≤ b ∧ b < e.seq then b + 1 else b)) =
        ((intRange 1 N).erase (1 + (j : Int))).map
          (fun b => if 1 + (j : Int) < b ∧ b ≤ 1 + (i : Int) then b - 1
            else b) := by
      rw [← hja, ← hip]
      exact List.map_congr_left fun b hb => by rw [if_pos hap]
    rw [hcongr, hip]
    exact rot_perm_fwd N j i hji hiN
  · have hcongr : ((intRange 1 N).erase e.seq).map
        (fun b => if e.seq < p then
          (if e.seq < b ∧ b ≤ p then b - 1 else b)
        else (if p ≤ b ∧ b < e.seq then b + 1 else b)) =
        (intRange 1 N).erase e.seq := by
      rw [List.map_congr_left (fun b hb => by
        rw [if_neg (by omega), if_neg (by omega)]), List.map_id']
    rw [hcongr, ← hap]
    have hmem : e.seq ∈ intRange 1 N := mem_intRange.mpr (by omega)
    exact (List.perm_cons_erase hmem).symm
  · have hij : i < j := by omega
    have hcongr : ((intRange 1 N).erase e.seq).map
        (fun b => if e.seq < p then
          (if e.seq < b ∧ b ≤ p then b - 1 else b)
        else (if p ≤ b ∧ b < e.seq then b + 1 else b)) =
        ((intRange 1 N).erase (1 + (j : Int))).map
          (fun b => if 1 + (i : Int) ≤ b ∧ b < 1 + (j : Int) then b + 1
            else b) := by
      rw [← hja, ← hip]
      exact List.map_congr_left fun b hb => by rw [if_neg (by omega)]
    rw [hcongr, hip]
    exact rot_perm_bwd N j i hij hjN

theorem dense_moveFn_old (s : List Entry) (hn : NotesNodup s)
    {n : Nat} {e : Entry} (he : e ∈ s) (hen : e.note = n)
    {pj : Nat} {opa npa : Option Nat} (hpj : e.project = pj)
    (hpe : e.parent = opa) (hdiff : opa ≠ npa) (p : Int)
    (hd : DenseGroup s pj opa) :
    DenseGroup (s.map (moveFn n pj opa npa e.seq p)) pj opa := by
  subst hen
  have hEg : e ∈ groupEntries s pj opa := mem_groupEntries.mpr ⟨he, hpj, hpe⟩
  obtain ⟨u, v, huv⟩ := List.append_of_mem hEg
  obtain ⟨hu, hv⟩ := notes_ne_of_decomp huv (groupEntries_notes_nodup hn pj opa)
  have hge := groupEntries_map_moveFn_old s hn he rfl hpj hpe hdiff e.seq p
  rw [huv, filter_ne_of_decomp hu hv] at hge
  have hNlen : groupSize s pj opa = u.length + v.length + 1 := by
    rw [groupSize, huv]
    simp
    omega
  obtain ⟨ha1, ha2⟩ := seq_bounds_of_dense he hpj hpe hd
  have hsize : groupSize (s.map (moveFn e.note pj opa npa e.seq p)) pj opa =
      groupSize s pj opa - 1 := by
    rw [groupSize, hge, List.length_map, List.length_append, hNlen]
    omega
  unfold DenseGroup
  rw [hsize, groupSeqs, hge, List.map_map]
  have hpt : ((u ++ v).map
      (Entry.seq ∘ moveFn e.note pj opa npa e.seq p)) =
      ((u ++ v).map Entry.seq).map
        (fun b => if e.seq < b then b - 1 else b) := by
    rw [List.map_map]
    refine List.map_congr_left fun x hx => ?_
    have hxg : x ∈ groupEntries s pj opa := by
      rw [huv]
      rcases List.mem_append.mp hx with h | h
      · exact List.mem_append_left _ h
      · exact List.mem_append_right _ (List.mem_cons_of_mem _ h)
    obtain ⟨-, hx1, hx2⟩ := mem_groupEntries.mp hxg
    have hxn : x.note ≠ e.note := by
      rcases List.mem_append.mp hx with h | h
      · exact hu x h
      · exact hv x h
    rw [Function.comp_apply, moveFn_of_other _ _ _ _ _ _ hxn]
    exact shiftsFn_seq_old pj opa npa e.seq p hdiff hx1 hx2
  rw [hpt]
  have herase := seqs_erase_perm huv hd
  refine (herase.map _).trans ?_
  set N := groupSize s pj opa with hN
  obtain ⟨j, hja, hjN⟩ : ∃ j : Nat, e.seq = 1 + (j : Int) ∧ j < N :=
    ⟨(e.seq - 1).toNat, by omega, by omega⟩
  rw [hja]
  exact gap_close_perm N j hjN

theorem dense_moveFn_new (s : List Entry) (hn : NotesNodup s)
    {n : Nat} {e : Entry} (he : e ∈ s) (hen : e.note = n)
    {pj : Nat} {opa npa : Option Nat} (hpj : e.project = pj)
    (hpe : e.parent = opa) (hdiff : opa ≠ npa) {p : Int} (hp1 : 1 ≤ p)
    (hp2 : p ≤ (groupSize s pj npa : Int) + 1)
    (hd : DenseGroup s pj npa) :
    DenseGroup (s.map (moveFn n pj opa npa e.seq p)) pj npa := by
  subst hen
  have hperm := groupEntries_map_moveFn_new s hn he rfl hpj hpe hdiff e.seq p
  have hsize : groupSize (s.map (moveFn e.note pj opa npa e.seq p)) pj npa =
      groupSize s pj npa + 1 := by
    rw [groupSize, hperm.length_eq]
    simp [groupSize]
  unfold DenseGroup
  rw [hsize, groupSeqs]
  refine (hperm.map Entry.seq).trans ?_
  rw [List.map_cons, List.map_map]
  have hFe : (moveFn e.note pj opa npa e.seq p e).seq = p := by
    rw [moveFn_of_moved _ _ _ _ _ _ rfl]
  rw [hFe]
  have h1 : (groupEntries s pj npa).map
      (Entry.seq ∘ moveFn e.note pj opa npa e.seq p) =
      (groupSeqs s pj npa).map (fun b => if p ≤ b then b + 1 else b) := by
    rw [groupSeqs, List.map_map]
    refine List.map_congr_left fun x hx => ?_
    obtain ⟨hxs, hx1, hx2⟩ := mem_groupEntries.mp hx
    have hxn : x.note ≠ e.note := by
      intro hc
      have hxe : x = e := note_inj hn hxs he hc
      exact hdiff (by rw [← hpe, ← hx2, hxe])
    rw [Function.comp_apply, moveFn_of_other _ _ _ _ _ _ hxn]
    exact shiftsFn_seq_new pj opa npa e.seq p hdiff hx1 hx2
  rw [h1]
  refine (List.Perm.cons p ((hd.map _))).trans ?_
  obtain ⟨i, hip, hiM⟩ : ∃ i : Nat, p = 1 + (i : Int) ∧
      i ≤ groupSize s pj npa :=
    ⟨(p - 1).toNat, by omega, by omega⟩
  rw [hip]
  exact make_space_perm (groupSize s pj npa) i hiM

/-! ### The clamp and the end-to-end move equations -/

theorem maxSeq_of_dense {s : List Entry} {pj : Nat} {pa : Option Nat}
    (hd : DenseGroup s pj pa) :
    maxSeq s pj pa = (groupSize s pj pa : Int) := by
  rw [maxSeq, maxOf_perm hd, maxOf_intRange]

theorem move_note_eq {s : List Entry} {n : Nat} {e : Entry}
    (he : lookupEntry s n = some e) (npa : Option Nat) (p : Int) :
    move_note s n npa p = some (moveResult s n e npa p) := by
  unfold move_note
  rw [he]

/-- Same-parent move with an in-range position on a dense group: the clamp is
the identity and the final normalize pass is a no-op, so the result is
exactly the park/shift/place map. -/
theorem moveResult_same (s : List Entry) (hn : NotesNodup s)
    {n : Nat} {e : Entry} (he : lookupEntry s n = some e)
    {p : Int} (hp1 : 1 ≤ p) (hp2 : p ≤ (groupSize s e.project e.parent : Int))
    (hd : DenseGroup s e.project e.parent) :
    moveResult s n e e.parent p =
      s.map (moveFn n e.project e.parent e.parent e.seq p) := by
  obtain ⟨hes, hen⟩ := lookupEntry_mem he
  have hpos : max 1 (min p (maxSeq s e.project e.parent + 1)) = p := by
    rw [maxSeq_of_dense hd]; omega
  unfold moveResult
  simp only [hpos, if_pos rfl]
  exact normalize_of_dense
    (map_moveFn_notes_nodup hn n e.project e.parent e.parent e.seq p)
    (dense_moveFn_same s hn hes hen rfl rfl hp1 hp2 hd)

/-- Different-parent move with an in-range position and dense groups: the
clamp is the identity and both normalize passes are no-ops. -/
theorem moveResult_diff (s : List Entry) (hn : NotesNodup s)
    {n : Nat} {e : Entry} (he : lookupEntry s n = some e)
    {npa : Option Nat} (hdiff : e.parent ≠ npa)
    {p : Int} (hp1 : 1 ≤ p)
    (hp2 : p ≤ (groupSize s e.project npa : Int) + 1)
    (hdo : DenseGroup s e.project e.parent)
    (hdn : DenseGroup s e.project npa) :
    moveResult s n e npa p =
      s.map (moveFn n e.project e.parent npa e.seq p) := by
  obtain ⟨hes, hen⟩ := lookupEntry_mem he
  have hpos : max 1 (min p (maxSeq s e.project npa + 1)) = p := by
    rw [maxSeq_of_dense hdn]; omega
  unfold moveResult
  simp only [hpos, if_neg hdiff]
  rw [normalize_of_dense
    (map_moveFn_notes_nodup hn n e.project e.parent npa e.seq p)
    (dense_moveFn_old s hn hes hen rfl rfl hdiff p hdo)]
  exact normalize_of_dense
    (map_moveFn_notes_nodup hn n e.project e.parent npa e.seq p)
    (dense_moveFn_new s hn hes hen rfl rfl hdiff hp1 hp2 hdn)

/-! ### The net effect of a move on each unmoved row -/

theorem moveFn_other_entry_same (n pj : Nat) (npa : Option Nat) (a p : Int)
    {x : Entry} (hxn : x.note ≠ n) :
    moveFn n pj npa npa a p x =
      if x.project = pj ∧ x.parent = npa ∧ a < p ∧
          a < x.seq ∧ x.seq ≤ p then { x with seq := x.seq - 1 }
      else if x.project = pj ∧ x.parent = npa ∧ p < a ∧
          p ≤ x.seq ∧ x.seq < a then { x with seq := x.seq + 1 }
      else x := by
  rw [moveFn_of_other _ _ _ _ _ _ hxn]
  by_cases hk : x.project = pj ∧ x.parent = npa
  · have hseq := shiftsFn_seq_same pj npa a p hk.1 hk.2
    by_cases hc1 : a < p ∧ a < x.seq ∧ x.seq ≤ p
    · rw [if_pos ⟨hk.1, hk.2, hc1.1, hc1.2.1, hc1.2.2⟩]
      refine Entry_ext (shiftsFn_note ..) (shiftsFn_project ..)
        (shiftsFn_parent ..) ?_
      rw [hseq, if_pos hc1.1, if_pos hc1.2]
    · by_cases hc2 : p < a ∧ p ≤ x.seq ∧ x.seq < a
      · rw [if_neg (fun hc => hc1 ⟨hc.2.2.1, hc.2.2.2⟩),
          if_pos ⟨hk.1, hk.2, hc2.1, hc2.2.1, hc2.2.2⟩]
        refine Entry_ext (shiftsFn_note ..) (shiftsFn_project ..)
          (shiftsFn_parent ..) ?_
        rw [hseq, if_neg (by omega), if_pos hc2.2]
      · rw [if_neg (fun hc => hc1 ⟨hc.2.2.1, hc.2.2.2⟩),
          if_neg (fun hc => hc2 ⟨hc.2.2.1, hc.2.2.2⟩)]
        refine Entry_ext (shiftsFn_note ..) (shiftsFn_project ..)
          (shiftsFn_parent ..) ?_
        rw [hseq]
        split
        · rw [if_neg (by omega)]
        · rw [if_neg (by omega)]
  · rw [if_neg (fun hc => hk ⟨hc.1, hc.2.1⟩),
      if_neg (fun hc => hk ⟨hc.1, hc.2.1⟩)]
    exact shiftsFn_of_key_ne _ _ _ _ _ hk hk

theorem moveFn_other_entry_diff (n pj : Nat) (opa npa : Option Nat)
    (a p : Int) (hdiff : opa ≠ npa) {x : Entry} (hxn : x.note ≠ n) :
    moveFn n pj opa npa a p x =
      if x.project = pj ∧ x.parent = opa ∧ a < x.seq then
        { x with seq := x.seq - 1 }
      else if x.project = pj ∧ x.parent = npa ∧ p ≤ x.seq then
        { x with seq := x.seq + 1 }
      else x := by
  rw [moveFn_of_other _ _ _ _ _ _ hxn]
  by_cases hko : x.project = pj ∧ x.parent = opa
  · have hseq := shiftsFn_seq_old pj opa npa a p hdiff hko.1 hko.2
    by_cases hr : a < x.seq
    · rw [if_pos ⟨hko.1, hko.2, hr⟩]
      refine Entry_ext (shiftsFn_note ..) (shiftsFn_project ..)
        (shiftsFn_parent ..) ?_
      rw [hseq, if_pos hr]
    · rw [if_neg (fun hc => hr hc.2.2),
        if_neg (fun hc => hdiff (by rw [← hko.2, hc.2.1]))]
      refine Entry_ext (shiftsFn_note ..) (shiftsFn_project ..)
        (shiftsFn_parent ..) ?_
      rw [hseq, if_neg hr]
  · by_cases hkn : x.project = pj ∧ x.parent = npa
    · have hseq := shiftsFn_seq_new pj opa npa a p hdiff hkn.1 hkn.2
      by_cases hr : p ≤ x.seq
      · rw [if_neg (fun hc => hko ⟨hc.1, hc.2.1⟩),
          if_pos ⟨hkn.1, hkn.2, hr⟩]
        refine Entry_ext (shiftsFn_note ..) (shiftsFn_project ..)
          (shiftsFn_parent ..) ?_
        rw [hseq, if_pos hr]
      · rw [if_neg (fun hc => hko ⟨hc.1, hc.2.1⟩),
          if_neg (fun hc => hr hc.2.2)]
        refine Entry_ext (shiftsFn_note ..) (shiftsFn_project ..)
          (shiftsFn_parent ..) ?_
        rw [hseq, if_neg hr]
    · rw [if_neg (fun hc => hko ⟨hc.1, hc.2.1⟩),
        if_neg (fun hc => hkn ⟨hc.1, hc.2.1⟩)]
      exact shiftsFn_of_key_ne _ _ _ _ _ hko hkn

theorem lookupEntry_map_moveFn (s : List Entry) (n : Nat) (pj : Nat)
    (opa npa : Option Nat) (a p : Int) (m : Nat) :
    lookupEntry (s.map (moveFn n pj opa npa a p)) m =
      (lookupEntry s m).map (moveFn n pj opa npa a p) :=
  lookupEntry_map s _ (fun x _ => moveFn_note n pj opa npa a p x) m

/-- C2: for a move within the same parent on a dense group with an in-range
1-based position: when old_sequence < position, exactly the entries of the
group with sequence in (old_sequence, position] are decremented by 1; when
old_sequence > position, exactly the entries with sequence in
[position, old_sequence) are incremented by 1; every other entry is
unchanged, and the moved note ends at the requested position. -/
theorem C2_same_parent_shift (s : List Entry) (n : Nat) (e : Entry) (p : Int)
    (hn : NotesNodup s) (he : lookupEntry s n = some e)
    (hd : DenseGroup s e.project e.parent)
    (hp1 : 1 ≤ p) (hp2 : p ≤ (groupSize s e.project e.parent : Int)) :
    ∃ s', move_note s n e.parent p = some s' ∧
      (∀ x ∈ s, x.note ≠ n →
        lookupEntry s' x.note = some (
          if x.project = e.project ∧ x.parent = e.parent ∧ e.seq < p ∧
              e.seq < x.seq ∧ x.seq ≤ p then { x with seq := x.seq - 1 }
          else if x.project = e.project ∧ x.parent = e.parent ∧ p < e.seq ∧
              p ≤ x.seq ∧ x.seq < e.seq then { x with seq := x.seq + 1 }
          else x)) ∧
      lookupEntry s' n = some { e with seq := p } := by
  obtain ⟨hes, hen⟩ := lookupEntry_mem he
  refine ⟨s.map (moveFn n e.project e.parent e.parent e.seq p), ?_, ?_, ?_⟩
  · rw [move_note_eq he, moveResult_same s hn he hp1 hp2 hd]
  · intro x hx hxn
    rw [lookupEntry_map_moveFn, lookupEntry_of_mem hn hx, Option.map_some',
      moveFn_other_entry_same n e.project e.parent e.seq p hxn]
  · rw [lookupEntry_map_moveFn, he, Option.map_some',
      moveFn_of_moved _ _ _ _ _ _ hen]

/-- Witness for C2 (spec Scenario A): root group [1:1, 2:2, 3:3], moving
note 2 to position 1 increments note 1 (sequence in [1, 2)), leaves note 3
alone, and puts note 2 at sequence 1. -/
theorem C2_witness :
    NotesNodup [⟨1, 0, none, 1⟩, ⟨2, 0, none, 2⟩, ⟨3, 0, none, 3⟩] ∧
    lookupEntry [⟨1, 0, none, 1⟩, ⟨2, 0, none, 2⟩, ⟨3, 0, none, 3⟩] 2 =
      some ⟨2, 0, none, 2⟩ ∧
    DenseGroup [⟨1, 0, none, 1⟩, ⟨2, 0, none, 2⟩, ⟨3, 0, none, 3⟩] 0 none ∧
    (∃ s', move_note [⟨1, 0, none, 1⟩, ⟨2, 0, none, 2⟩, ⟨3, 0, none, 3⟩]
        2 none 1 = some s' ∧
      (∀ x ∈ [(⟨1, 0, none, 1⟩ : Entry), ⟨2, 0, none, 2⟩, ⟨3, 0, none, 3⟩],
        x.note ≠ 2 →
        lookupEntry s' x.note = some (
          if x.project = 0 ∧ x.parent = none ∧ (2 : Int) < 1 ∧
              (2 : Int) < x.seq ∧ x.seq ≤ 1 then { x with seq := x.seq - 1 }
          else if x.project = 0 ∧ x.parent = none ∧ (1 : Int) < 2 ∧
              1 ≤ x.seq ∧ x.seq < 2 then { x with seq := x.seq + 1 }
          else x)) ∧
      lookupEntry s' 2 = some ⟨2, 0, none, 1⟩) :=
  ⟨by decide, by decide, by decide,
    C2_same_parent_shift _ 2 ⟨2, 0, none, 2⟩ 1 (by decide) (by decide)
      (by decide) (by decide) (by decide)⟩

/-- C3: for a move to a different parent on dense groups with an in-range
position: every entry of the old group with sequence above the moved note's
old sequence is decremented by 1, every entry of the new group with sequence
at least the position is incremented by 1, everything else is unchanged, and
the note lands in the new group at the requested position.  In particular (the
claim's scenario, second conjunct): with X = 10 having children [P=1:1,
Q=2:2] and Y = 11 having [R=3:1], move(Q, Y, 1) yields X children [P:1] and
Y children [Q:1, R:2]. -/
theorem C3_diff_parent_move (s : List Entry) (n : Nat) (e : Entry)
    (npa : Option Nat) (p : Int) (hn : NotesNodup s)
    (he : lookupEntry s n = some e) (hdiff : e.parent ≠ npa)
    (hdo : DenseGroup s e.project e.parent)
    (hdn : DenseGroup s e.project npa)
    (hp1 : 1 ≤ p) (hp2 : p ≤ (groupSize s e.project npa : Int) + 1) :
    (∃ s', move_note s n npa p = some s' ∧
      (∀ x ∈ s, x.note ≠ n →
        lookupEntry s' x.note = some (
          if x.project = e.project ∧ x.parent = e.parent ∧ e.seq < x.seq then
            { x with seq := x.seq - 1 }
          else if x.project = e.project ∧ x.parent = npa ∧ p ≤ x.seq then
            { x with seq := x.seq + 1 }
          else x)) ∧
      lookupEntry s' n = some { e with parent := npa, seq := p }) ∧
    move_note [⟨1, 0, some 10, 1⟩, ⟨2, 0, some 10, 2⟩, ⟨3, 0, some 11, 1⟩]
        2 (some 11) 1 =
      some [⟨1, 0, some 10, 1⟩, ⟨2, 0, some 11, 1⟩, ⟨3, 0, some 11, 2⟩] := by
  refine ⟨?_, by decide⟩
  obtain ⟨hes, hen⟩ := lookupEntry_mem he
  refine ⟨s.map (moveFn n e.project e.parent npa e.seq p), ?_, ?_, ?_⟩
  · rw [move_note_eq he, moveResult_diff s hn he hdiff hp1 hp2 hdo hdn]
  · intro x hx hxn
    rw [lookupEntry_map_moveFn, lookupEntry_of_mem hn hx, Option.map_some',
      moveFn_other_entry_diff n e.project e.parent npa e.seq p hdiff hxn]
  · rw [lookupEntry_map_moveFn, he, Option.map_some',
      moveFn_of_moved _ _ _ _ _ _ hen]

/-- Witness for C3, the claim's own Scenario B. -/
theorem C3_witness :
    NotesNodup [⟨1, 0, some 10, 1⟩, ⟨2, 0, some 10, 2⟩, ⟨3, 0, some 11, 1⟩] ∧
    lookupEntry [⟨1, 0, some 10, 1⟩, ⟨2, 0, some 10, 2⟩, ⟨3, 0, some 11, 1⟩]
      2 = some ⟨2, 0, some 10, 2⟩ ∧
    (some 10 : Option Nat) ≠ some 11 ∧
    DenseGroup [⟨1, 0, some 10, 1⟩, ⟨2, 0, some 10, 2⟩, ⟨3, 0, some 11, 1⟩]
      0 (some 10) ∧
    DenseGroup [⟨1, 0, some 10, 1⟩, ⟨2, 0, some 10, 2⟩, ⟨3, 0, some 11, 1⟩]
      0 (some 11) ∧
    ((∃ s', move_note
        [⟨1, 0, some 10, 1⟩, ⟨2, 0, some 10, 2⟩, ⟨3, 0, some 11, 1⟩]
        2 (some 11) 1 = some s' ∧
      (∀ x ∈ [(⟨1, 0, some 10, 1⟩ : Entry), ⟨2, 0, some 10, 2⟩,
          ⟨3, 0, some 11, 1⟩], x.note ≠ 2 →
        lookupEntry s' x.note = some (
          if x.project = 0 ∧ x.parent = some 10 ∧ (2 : Int) < x.seq then
            { x with seq := x.seq - 1 }
          else if x.project = 0 ∧ x.parent = some 11 ∧ (1 : Int) ≤ x.seq then
            { x with seq := x.seq + 1 }
          else x)) ∧
      lookupEntry s' 2 = some ⟨2, 0, some 11, 1⟩) ∧
    move_note [⟨1, 0, some 10, 1⟩, ⟨2, 0, some 10, 2⟩, ⟨3, 0, some 11, 1⟩]
        2 (some 11) 1 =
      some [⟨1, 0, some 10, 1⟩, ⟨2, 0, some 11, 1⟩, ⟨3, 0, some 11, 2⟩]) :=
  ⟨by decide, by decide, by decide, by decide, by decide,
    C3_diff_parent_move _ 2 ⟨2, 0, some 10, 2⟩ (some 11) 1 (by decide)
      (by decide) (by decide) (by decide) (by decide) (by decide)
      (by decide)⟩

/-- C5 (amended): on a dense sibling group, moving a note to its current
parent and current sequence leaves the whole store unchanged: the clamp
returns the old sequence, the shift ranges are empty, park followed by place
restores the row, and the final normalize of a dense group is the
identity. -/
theorem C5_noop_on_dense (s : List Entry) (n : Nat) (e : Entry)
    (hn : NotesNodup s) (he : lookupEntry s n = some e)
    (hd : DenseGroup s e.project e.parent) :
    move_note s n e.parent e.seq = some s := by
  obtain ⟨hes, hen⟩ := lookupEntry_mem he
  obtain ⟨ha1, ha2⟩ := seq_bounds_of_dense hes rfl rfl hd
  rw [move_note_eq he, moveResult_same s hn he ha1 (by omega) hd]
  congr 1
  have hpt : ∀ x ∈ s,
      moveFn n e.project e.parent e.parent e.seq e.seq x = x := by
    intro x hx
    by_cases hxn : x.note = n
    · have hxe : x = e := note_inj hn hx hes (by rw [hxn, hen])
      subst hxe
      rw [moveFn_of_moved _ _ _ _ _ _ hxn]
    · rw [moveFn_other_entry_same _ _ _ _ _ hxn,
        if_neg (fun hc => lt_irrefl _ hc.2.2.1),
        if_neg (fun hc => lt_irrefl _ hc.2.2.1)]
  rw [List.map_congr_left hpt, List.map_id']

/-- Witness for C5 (amended): a dense two-note root group is untouched by
the no-op move. -/
theorem C5_witness :
    NotesNodup [⟨1, 0, none, 1⟩, ⟨2, 0, none, 2⟩] ∧
    lookupEntry [⟨1, 0, none, 1⟩, ⟨2, 0, none, 2⟩] 1 =
      some ⟨1, 0, none, 1⟩ ∧
    DenseGroup [⟨1, 0, none, 1⟩, ⟨2, 0, none, 2⟩] 0 none ∧
    move_note [⟨1, 0, none, 1⟩, ⟨2, 0, none, 2⟩] 1 none 1 =
      some [⟨1, 0, none, 1⟩, ⟨2, 0, none, 2⟩] :=
  ⟨by decide, by decide, by decide,
    C5_noop_on_dense _ 1 ⟨1, 0, none, 1⟩ (by decide) (by decide) (by decide)⟩

/-- C4: however out-of-range the requested 1-based position is, a successful
move never places the note outside [1, max_valid], where max_valid is the
target group's size if the parent is unchanged and the target group's size
plus one if the parent changes (sizes measured before the move).  This holds
with no density assumption: the clamp bounds the raw position, and the final
normalize pass re-ranks the affected group within 1..size. -/
theorem C4_position_clamped (s : List Entry) (n : Nat) (e : Entry)
    (npa : Option Nat) (r : Int) (hn : NotesNodup s)
    (he : lookupEntry s n = some e) :
    ∃ s' e', move_note s n npa r = some s' ∧ lookupEntry s' n = some e' ∧
      e'.parent = npa ∧ 1 ≤ e'.seq ∧
      e'.seq ≤ (if e.parent = npa then (groupSize s e.project e.parent : Int)
        else (groupSize s e.project npa : Int) + 1) := by
  obtain ⟨hes, hen⟩ := lookupEntry_mem he
  rw [move_note_eq he]
  by_cases hcase : e.parent = npa
  · subst hcase
    have hres : moveResult s n e e.parent r =
        normalize_note_sequences
          (s.map (moveFn n e.project e.parent e.parent e.seq
            (max 1 (min r (maxSeq s e.project e.parent + 1)))))
          e.project e.parent := by
      simp only [moveResult, if_pos]
    rw [hres]
    set pos := max 1 (min r (maxSeq s e.project e.parent + 1)) with hposdef
    have hFe : moveFn n e.project e.parent e.parent e.seq pos e =
        { e with parent := e.parent, seq := pos } :=
      moveFn_of_moved _ _ _ _ _ _ hen
    have hFes : moveFn n e.project e.parent e.parent e.seq pos e ∈
        s.map (moveFn n e.project e.parent e.parent e.seq pos) :=
      List.mem_map_of_mem _ hes
    refine ⟨_, normFn (s.map (moveFn n e.project e.parent e.parent e.seq pos))
      e.project e.parent (moveFn n e.project e.parent e.parent e.seq pos e),
      rfl, ?_, ?_, ?_, ?_⟩
    · rw [normalize_lookup, lookupEntry_map_moveFn, he, Option.map_some',
        Option.map_some']
    · rw [normFn_parent, hFe]
    · have hb := normFn_seq_bounds (s := s.map
        (moveFn n e.project e.parent e.parent e.seq pos)) hFes
        (by rw [hFe]) (by rw [hFe])
      exact hb.1
    · have hb := normFn_seq_bounds (s := s.map
        (moveFn n e.project e.parent e.parent e.seq pos)) hFes
        (by rw [hFe]) (by rw [hFe])
      have hsz : groupSize (s.map
          (moveFn n e.project e.parent e.parent e.seq pos))
          e.project e.parent = groupSize s e.project e.parent := by
        rw [groupSize, groupEntries_map_moveFn_same s hn hes hen e.project
          e.parent rfl e.seq pos e.project e.parent, List.length_map]
        rfl
      rw [if_pos rfl]
      have := hb.2
      rw [hsz] at this
      exact this
  · have hdiff : e.parent ≠ npa := hcase
    have hres : moveResult s n e npa r =
        normalize_note_sequences
          (normalize_note_sequences
            (s.map (moveFn n e.project e.parent npa e.seq
              (max 1 (min r (maxSeq s e.project npa + 1)))))
            e.project e.parent)
          e.project npa := by
      simp only [moveResult, if_neg hdiff]
    rw [hres]
    set pos := max 1 (min r (maxSeq s e.project npa + 1)) with hposdef
    have hFe : moveFn n e.project e.parent npa e.seq pos e =
        { e with parent := npa, seq := pos } :=
      moveFn_of_moved _ _ _ _ _ _ hen
    have hFes : moveFn n e.project e.parent npa e.seq pos e ∈
        s.map (moveFn n e.project e.parent npa e.seq pos) :=
      List.mem_map_of_mem _ hes
    have hskip : normFn (s.map (moveFn n e.project e.parent npa e.seq pos))
        e.project e.parent (moveFn n e.project e.parent npa e.seq pos e) =
        moveFn n e.project e.parent npa e.seq pos e := by
      refine normFn_of_not_mem _ _ _ fun hc => hdiff ?_
      rw [hFe] at hc
      exact hc.2.symm
    have hFes4 : moveFn n e.project e.parent npa e.seq pos e ∈
        normalize_note_sequences
          (s.map (moveFn n e.project e.parent npa e.seq pos))
          e.project e.parent := by
      rw [normalize_note_sequences]
      rw [← hskip]
      exact List.mem_map_of_mem _ hFes
    refine ⟨_, normFn (normalize_note_sequences
        (s.map (moveFn n e.project e.parent npa e.seq pos))
        e.project e.parent) e.project npa
        (moveFn n e.project e.parent npa e.seq pos e),
      rfl, ?_, ?_, ?_, ?_⟩
    · rw [normalize_lookup, normalize_lookup, lookupEntry_map_moveFn, he,
        Option.map_some', Option.map_some', hskip, Option.map_some']
    · rw [normFn_parent, hFe]
    · have hb := normFn_seq_bounds (s := normalize_note_sequences
        (s.map (moveFn n e.project e.parent npa e.seq pos))
        e.project e.parent) hFes4 (by rw [hFe]) (by rw [hFe])
      exact hb.1
    · have hb := normFn_seq_bounds (s := normalize_note_sequences
        (s.map (moveFn n e.project e.parent npa e.seq pos))
        e.project e.parent) hFes4 (by rw [hFe]) (by rw [hFe])
      have hsz1 : groupSize (normalize_note_sequences
          (s.map (moveFn n e.project e.parent npa e.seq pos))
          e.project e.parent) e.project npa =
          groupSize (s.map (moveFn n e.project e.parent npa e.seq pos))
            e.project npa := by
        rw [groupSize, normalize_groupEntries_other _ _ _ _ _
          (fun hc => hdiff hc.2.symm)]
        rfl
      have hsz2 : groupSize (s.map
          (moveFn n e.project e.parent npa e.seq pos)) e.project npa =
          groupSize s e.project npa + 1 := by
        have hperm := groupEntries_map_moveFn_new s hn hes hen rfl rfl hdiff
          e.seq pos
        rw [groupSize, hperm.length_eq]
        simp [groupSize]
      rw [if_neg hdiff]
      have := hb.2
      rw [hsz1, hsz2] at this
      push_cast at this ⊢
      omega

/-- Witness for C4: requesting position 99 in a two-note root group still
lands the note inside [1, 2]. -/
theorem C4_witness :
    NotesNodup [⟨1, 0, none, 1⟩, ⟨2, 0, none, 2⟩] ∧
    lookupEntry [⟨1, 0, none, 1⟩, ⟨2, 0, none, 2⟩] 1 =
      some ⟨1, 0, none, 1⟩ ∧
    (∃ s' e', move_note [⟨1, 0, none, 1⟩, ⟨2, 0, none, 2⟩] 1 none 99 =
        some s' ∧
      lookupEntry s' 1 = some e' ∧ e'.parent = none ∧ 1 ≤ e'.seq ∧
      e'.seq ≤ (if (none : Option Nat) = none then
        (groupSize [⟨1, 0, none, 1⟩, ⟨2, 0, none, 2⟩] 0 none : Int)
      else (groupSize [⟨1, 0, none, 1⟩, ⟨2, 0, none, 2⟩] 0 none : Int) + 1)) :=
  ⟨by decide, by decide,
    C4_position_clamped _ 1 ⟨1, 0, none, 1⟩ none 99 (by decide) (by decide)⟩

/-! ### Density preservation for create, move and normalize -/

theorem groupEntries_append (s t : List Entry) (pj : Nat) (pa : Option Nat) :
    groupEntries (s ++ t) pj pa =
      groupEntries s pj pa ++ groupEntries t pj pa := by
  unfold groupEntries
  exact List.filter_append _ _

theorem denseGroup_congr {s s' : List Entry} {pj : Nat} {pa : Option Nat}
    (h : groupEntries s' pj pa = groupEntries s pj pa)
    (hd : DenseGroup s pj pa) : DenseGroup s' pj pa := by
  unfold DenseGroup groupSeqs groupSize at *
  rw [h]
  exact hd

theorem create_preserves_dense {s : List Entry} (hd : AllDense s)
    (pj : Nat) (pa : Option Nat) (nid : Nat) :
    AllDense (create_order_entry s pj pa nid) := by
  intro k1 k2
  unfold create_order_entry
  by_cases hk : k1 = pj ∧ k2 = pa
  · rw [hk.1, hk.2]
    have hx : groupEntries
        (s ++ [⟨nid, pj, pa, get_next_sequence s pj pa⟩]) pj pa =
        groupEntries s pj pa ++ [⟨nid, pj, pa, get_next_sequence s pj pa⟩] := by
      rw [groupEntries_append]
      congr 1
      simp [groupEntries, inGroup]
    unfold DenseGroup
    rw [groupSeqs, groupSize, hx, List.map_append, List.length_append]
    have hmax : get_next_sequence s pj pa = (groupSize s pj pa : Int) + 1 := by
      rw [get_next_sequence, maxSeq_of_dense (hd pj pa)]
    have hrange : intRange 1 (groupSize s pj pa + 1) =
        intRange 1 (groupSize s pj pa) ++
          [(groupSize s pj pa : Int) + 1] := by
      rw [intRange_append 1 (groupSize s pj pa) 1]
      congr 1
      show [(1 : Int) + (groupSize s pj pa : Int)] = _
      rw [add_comm]
    simp only [List.map_cons, List.map_nil, List.length_cons,
      List.length_nil]
    rw [show (groupEntries s pj pa).length + (0 + 1) = groupSize s pj pa + 1
      from by unfold groupSize; omega]
    rw [hrange]
    have hbase : (groupSeqs s pj pa).Perm
        (intRange 1 (groupSize s pj pa)) := hd pj pa
    have hfin := hbase.append_right
      [(⟨nid, pj, pa, get_next_sequence s pj pa⟩ : Entry).seq]
    rw [show (⟨nid, pj, pa, get_next_sequence s pj pa⟩ : Entry).seq =
        get_next_sequence s pj pa from rfl, hmax] at hfin
    rw [hmax]
    exact hfin
  · refine denseGroup_congr ?_ (hd k1 k2)
    rw [groupEntries_append]
    have hnil : groupEntries
        [(⟨nid, pj, pa, get_next_sequence s pj pa⟩ : Entry)] k1 k2 = [] := by
      refine List.filter_eq_nil_iff.mpr ?_
      intro x hx
      rcases List.mem_singleton.mp hx with rfl
      simp only [inGroup, decide_eq_true_eq]
      intro hc
      exact hk ⟨hc.1.symm, hc.2.symm⟩
    rw [hnil, List.append_nil]

theorem normalize_preserves_dense {s : List Entry} (hn : NotesNodup s)
    (hd : AllDense s) (pj : Nat) (pa : Option Nat) :
    AllDense (normalize_note_sequences s pj pa) := by
  intro k1 k2
  by_cases hk : k1 = pj ∧ k2 = pa
  · rw [hk.1, hk.2]
    exact normalize_dense hn pj pa
  · exact denseGroup_congr
      (normalize_groupEntries_other s pj k1 pa k2 hk) (hd k1 k2)

theorem move_preserves_dense {s : List Entry} (hn : NotesNodup s)
    (hd : AllDense s) {n : Nat} {npa : Option Nat} {r : Int}
    {s' : List Entry} (h : move_note s n npa r = some s') : AllDense s' := by
  unfold move_note at h
  cases hle : lookupEntry s n with
  | none => rw [hle] at h; cases h
  | some e =>
    rw [hle] at h
    injection h with h'
    subst h'
    obtain ⟨hes, hen⟩ := lookupEntry_mem hle
    by_cases hcase : e.parent = npa
    · subst hcase
      have hres : moveResult s n e e.parent r =
          normalize_note_sequences
            (s.map (moveFn n e.project e.parent e.parent e.seq
              (max 1 (min r (maxSeq s e.project e.parent + 1)))))
            e.project e.parent := by
        simp only [moveResult, if_pos]
      rw [hres]
      intro k1 k2
      by_cases hk : k1 = e.project ∧ k2 = e.parent
      · rw [hk.1, hk.2]
        exact normalize_dense (map_moveFn_notes_nodup hn _ _ _ _ _ _)
          e.project e.parent
      · refine denseGroup_congr ?_ (hd k1 k2)
        rw [normalize_groupEntries_other _ _ _ _ _ hk]
        exact groupEntries_map_moveFn_other_key s hn hes hen rfl rfl _ _ hk hk
    · have hres : moveResult s n e npa r =
          normalize_note_sequences
            (normalize_note_sequences
              (s.map (moveFn n e.project e.parent npa e.seq
                (max 1 (min r (maxSeq s e.project npa + 1)))))
              e.project e.parent)
            e.project npa := by
        simp only [moveResult, if_neg hcase]
      rw [hres]
      intro k1 k2
      by_cases hk2 : k1 = e.project ∧ k2 = npa
      · rw [hk2.1, hk2.2]
        exact normalize_dense
          (normalize_notes_nodup (map_moveFn_notes_nodup hn _ _ _ _ _ _) _ _)
          e.project npa
      · refine denseGroup_congr
          (normalize_groupEntries_other _ _ _ _ _ hk2) ?_
        by_cases hk1 : k1 = e.project ∧ k2 = e.parent
        · rw [hk1.1, hk1.2]
          exact normalize_dense (map_moveFn_notes_nodup hn _ _ _ _ _ _)
            e.project e.parent
        · refine denseGroup_congr
            (normalize_groupEntries_other _ _ _ _ _ hk1) ?_
          refine denseGroup_congr ?_ (hd k1 k2)
          exact groupEntries_map_moveFn_other_key s hn hes hen rfl rfl _ _
            hk1 hk2

/-- C1 (amended): on a store whose groups all satisfy the density invariant,
every successful create, move, and (any-group) normalize leaves every
(container, parent) sibling group with sequences exactly {1..N} — the moved
note's affected groups are even re-densified unconditionally by the final
normalize pass.  (Delete is excluded: it leaves a gap, see the
counterexample.) -/
theorem C1_density_invariant (s : List Entry) (hn : NotesNodup s)
    (hd : AllDense s) :
    (∀ pj pa nid, AllDense (create_order_entry s pj pa nid)) ∧
    (∀ n npa r s', move_note s n npa r = some s' → AllDense s') ∧
    (∀ pj pa, AllDense (normalize_note_sequences s pj pa)) :=
  ⟨fun pj pa nid => create_preserves_dense hd pj pa nid,
   fun _ _ _ _ h => move_preserves_dense hn hd h,
   fun pj pa => normalize_preserves_dense hn hd pj pa⟩

/-- Witness for C1 at a concrete dense store. -/
theorem C1_witness :
    NotesNodup [⟨1, 0, none, 1⟩] ∧ AllDense [⟨1, 0, none, 1⟩] ∧
    ((∀ pj pa nid, AllDense (create_order_entry [⟨1, 0, none, 1⟩] pj pa nid)) ∧
     (∀ n npa r s', move_note [⟨1, 0, none, 1⟩] n npa r = some s' →
        AllDense s') ∧
     (∀ pj pa, AllDense (normalize_note_sequences [⟨1, 0, none, 1⟩] pj pa))) :=
  ⟨by decide, allDense_of_check _ (by decide),
    C1_density_invariant _ (by decide) (allDense_of_check _ (by decide))⟩
